import Mathlib

/-!
Verification of the zbus D-Bus client library against its specification.

The development shallowly embeds the library's data model and algorithms:
the D-Bus signature grammar and its parser/printer, the variant value
model, the wire-format encoder and decoder with their alignment rules,
the dictionary construction, the connection call/reply state machine,
and the `FilePath` type from `zvariant/src/file_path.rs`.

The repository sources available contain only the crate root (module
declarations and integration tests) and `file_path.rs`; the remaining
modules (signature, variant, message, connection) are modelled from the
specification document, as indicated on each definition.
-/

namespace Zbus

instance {ε α : Type _} [DecidableEq ε] [DecidableEq α] : DecidableEq (Except ε α) := fun x y =>
  match x, y with
  | .ok a, .ok b =>
    if h : a = b then .isTrue (by rw [h]) else .isFalse (fun hh => h (Except.ok.inj hh))
  | .error a, .error b =>
    if h : a = b then .isTrue (by rw [h]) else .isFalse (fun hh => h (Except.error.inj hh))
  | .ok _, .error _ => .isFalse (fun hh => Except.noConfusion hh)
  | .error _, .ok _ => .isFalse (fun hh => Except.noConfusion hh)

/-! ## Signature type model

Modelled from the spec: the signature tree of §3 — primitive tokens
(byte, boolean, int16/32/64, uint16/32/64, double, string, object-path,
signature-string) are leaves; `Array(T)`, `Struct(T1..Tn)`,
`DictEntry(K,V)`, `Variant` are composite and recursive.  `DictEntry`
keys must be a primitive-basic type, and a struct has at least one
field, so both constraints are intrinsic to the tree type. -/

inductive BasicType where
  | byte | boolean | int16 | uint16 | int32 | uint32 | int64 | uint64
  | double | string | objectPath | signatureT
  deriving DecidableEq, Repr

mutual
inductive SigType where
  | basic (b : BasicType)
  | array (elem : SigType)
  | structT (fields : SigList)
  | dictEntry (key : BasicType) (value : SigType)
  | variant
  deriving DecidableEq, Repr
inductive SigList where
  | single (t : SigType)
  | cons (head : SigType) (tail : SigList)
  deriving DecidableEq, Repr
end

mutual
/-- Size measure on signature trees, used for parser-fuel accounting. -/
def sigSize : SigType → Nat
  | .basic _ => 1
  | .variant => 1
  | .array t => 1 + sigSize t
  | .dictEntry _ v => 2 + sigSize v
  | .structT fs => 2 + sigListSize fs
def sigListSize : SigList → Nat
  | .single t => sigSize t
  | .cons h t => sigSize h + sigListSize t
end

/-- Modelled from the spec: the ASCII type code of each primitive type
(§6, "Signature strings"). -/
def basicChar : BasicType → Char
  | .byte => 'y'
  | .boolean => 'b'
  | .int16 => 'n'
  | .uint16 => 'q'
  | .int32 => 'i'
  | .uint32 => 'u'
  | .int64 => 'x'
  | .uint64 => 't'
  | .double => 'd'
  | .string => 's'
  | .objectPath => 'o'
  | .signatureT => 'g'

/-- Inverse lookup of a primitive type code. -/
def basicOfChar (c : Char) : Option BasicType :=
  if c = 'y' then some .byte
  else if c = 'b' then some .boolean
  else if c = 'n' then some .int16
  else if c = 'q' then some .uint16
  else if c = 'i' then some .int32
  else if c = 'u' then some .uint32
  else if c = 'x' then some .int64
  else if c = 't' then some .uint64
  else if c = 'd' then some .double
  else if c = 's' then some .string
  else if c = 'o' then some .objectPath
  else if c = 'g' then some .signatureT
  else none

mutual
/-- Modelled from the spec: `to_string` rendering of one signature tree
node (§4.1); a dict entry prints as a brace-wrapped key/value pair, a
struct as a parenthesised field list. -/
def sigTypeChars : SigType → List Char
  | .basic b => [basicChar b]
  | .variant => ['v']
  | .array t => 'a' :: sigTypeChars t
  | .dictEntry k v => '{' :: basicChar k :: (sigTypeChars v ++ ['}'])
  | .structT fs => '(' :: (sigListChars fs ++ [')'])
def sigListChars : SigList → List Char
  | .single t => sigTypeChars t
  | .cons h t => sigTypeChars h ++ sigListChars t
end

/-- Characters of a whole signature: the concatenation of its
single-complete-type renderings. -/
def signatureChars (ts : List SigType) : List Char :=
  (ts.map sigTypeChars).flatten

/-- Modelled from the spec: `to_string(Signature-tree) -> signature_string`
(§4.1). -/
def sigToString (ts : List SigType) : String :=
  ⟨signatureChars ts⟩

/-- Modelled from the spec: the sole failure condition of the signature
parser (§4.1) — invalid nesting, unknown type codes, or unterminated
containers all yield `MalformedSignature`. -/
inductive SigErr where
  | malformedSignature
  deriving DecidableEq, Repr

/-- Case analysis on an `Except`, propagating the error. -/
def exCase {ε α β : Type _} (x : Except ε α) (f : α → Except ε β) : Except ε β :=
  match x with
  | .ok a => f a
  | .error e => .error e

theorem exCase_ok {ε α β : Type _} (a : α) (f : α → Except ε β) :
    exCase (.ok a) f = f a := rfl

theorem exCase_error {ε α β : Type _} (e : ε) (f : α → Except ε β) :
    exCase (.error e : Except ε α) f = .error e := rfl

theorem exCase_eq_ok {ε α β : Type _} {x : Except ε α}
    {f : α → Except ε β} {c : β} (h : exCase x f = .ok c) :
    ∃ a, x = .ok a ∧ f a = .ok c := by
  match x with
  | .ok a => exact ⟨a, rfl, h⟩
  | .error e => exact Except.noConfusion h

/-- Case analysis on an `Except` of a pair, propagating the error. -/
def exCase₂ {ε α β γ : Type _} (x : Except ε (α × β)) (f : α → β → Except ε γ) :
    Except ε γ :=
  match x with
  | .ok (a, b) => f a b
  | .error e => .error e

theorem exCase₂_ok {ε α β γ : Type _} (a : α) (b : β) (f : α → β → Except ε γ) :
    exCase₂ (.ok (a, b)) f = f a b := rfl

theorem exCase₂_error {ε α β γ : Type _} (e : ε) (f : α → β → Except ε γ) :
    exCase₂ (.error e) f = .error e := rfl

theorem exCase₂_eq_ok {ε α β γ : Type _} {x : Except ε (α × β)}
    {f : α → β → Except ε γ} {c : γ} (h : exCase₂ x f = .ok c) :
    ∃ a b, x = .ok (a, b) ∧ f a b = .ok c := by
  match x with
  | .ok (a, b) => exact ⟨a, b, rfl, h⟩
  | .error e => exact Except.noConfusion h

/-- Case analysis on an `Option`. -/
def optCase {α β : Type _} (x : Option α) (f : α → β) (d : β) : β :=
  match x with
  | some a => f a
  | none => d

theorem optCase_some {α β : Type _} (a : α) (f : α → β) (d : β) :
    optCase (some a) f d = f a := rfl

theorem optCase_none {α β : Type _} (f : α → β) (d : β) :
    optCase none f d = d := rfl

/-- Modelled from the spec: recursive-descent parser (§4.1), structured
as fuel recursion returning the pair of the one-complete-type parser and
the struct-field-list parser.  Each parser returns the parsed tree and
the unconsumed suffix. -/
def parsePair : Nat →
    ((List Char → Except SigErr (SigType × List Char)) ×
      (List Char → Except SigErr (SigList × List Char)))
  | 0 => (fun _ => .error .malformedSignature, fun _ => .error .malformedSignature)
  | f + 1 =>
    ( fun cs =>
        match cs with
        | [] => .error .malformedSignature
        | c :: cs =>
          if c = 'a' then
            exCase₂ ((parsePair f).1 cs) (fun t rest => .ok (.array t, rest))
          else if c = 'v' then .ok (.variant, cs)
          else if c = '(' then
            exCase₂ ((parsePair f).2 cs) (fun fs rest => .ok (.structT fs, rest))
          else if c = '{' then
            match cs with
            | [] => .error .malformedSignature
            | k :: cs' =>
              optCase (basicOfChar k)
                (fun kb =>
                  exCase₂ ((parsePair f).1 cs')
                    (fun v rest =>
                      if rest.head? = some '}' then .ok (.dictEntry kb v, rest.tail)
                      else .error .malformedSignature))
                (.error .malformedSignature)
          else
            optCase (basicOfChar c) (fun b => .ok (.basic b, cs))
              (.error .malformedSignature),
      fun cs =>
        exCase₂ ((parsePair f).1 cs)
          (fun t rest =>
            if rest.head? = some ')' then .ok (.single t, rest.tail)
            else
              exCase₂ ((parsePair f).2 rest)
                (fun fs rest' => .ok (.cons t fs, rest'))) )

/-- One-complete-type parser at a given fuel. -/
def parseOneF (f : Nat) (cs : List Char) : Except SigErr (SigType × List Char) :=
  (parsePair f).1 cs

/-- Struct-field-list parser at a given fuel: parses one or more
complete types followed by the closing parenthesis. -/
def parseFieldsF (f : Nat) (cs : List Char) : Except SigErr (SigList × List Char) :=
  (parsePair f).2 cs

theorem parseOneF_zero (cs : List Char) :
    parseOneF 0 cs = .error .malformedSignature := rfl

theorem parseOneF_nil (f : Nat) :
    parseOneF (f + 1) [] = .error .malformedSignature := rfl

theorem parseOneF_a (f : Nat) (cs : List Char) :
    parseOneF (f + 1) ('a' :: cs) =
      exCase₂ (parseOneF f cs) (fun t rest => .ok (.array t, rest)) := rfl

theorem parseOneF_v (f : Nat) (cs : List Char) :
    parseOneF (f + 1) ('v' :: cs) = .ok (.variant, cs) := rfl

theorem parseOneF_paren (f : Nat) (cs : List Char) :
    parseOneF (f + 1) ('(' :: cs) =
      exCase₂ (parseFieldsF f cs) (fun fs rest => .ok (.structT fs, rest)) := rfl

theorem parseOneF_brace_nil (f : Nat) :
    parseOneF (f + 1) ['{'] = .error .malformedSignature := rfl

theorem parseOneF_brace (f : Nat) (k : Char) (cs : List Char) :
    parseOneF (f + 1) ('{' :: k :: cs) =
      optCase (basicOfChar k)
        (fun kb =>
          exCase₂ (parseOneF f cs)
            (fun v rest =>
              if rest.head? = some '}' then .ok (.dictEntry kb v, rest.tail)
              else .error .malformedSignature))
        (.error .malformedSignature) := rfl

theorem parseOneF_default (f : Nat) (c : Char) (cs : List Char)
    (h1 : c ≠ 'a') (h2 : c ≠ 'v') (h3 : c ≠ '(') (h4 : c ≠ '{') :
    parseOneF (f + 1) (c :: cs) =
      optCase (basicOfChar c) (fun b => .ok (.basic b, cs))
        (.error .malformedSignature) := by
  show (if c = 'a' then _ else if c = 'v' then _ else if c = '(' then _
    else if c = '{' then _ else _) = _
  rw [if_neg h1, if_neg h2, if_neg h3, if_neg h4]

theorem parseOneF_basic (f : Nat) (b : BasicType) (cs : List Char) :
    parseOneF (f + 1) (basicChar b :: cs) = .ok (.basic b, cs) := by
  cases b <;> rfl

theorem parseFieldsF_zero (cs : List Char) :
    parseFieldsF 0 cs = .error .malformedSignature := rfl

theorem parseFieldsF_succ (f : Nat) (cs : List Char) :
    parseFieldsF (f + 1) cs =
      exCase₂ (parseOneF f cs)
        (fun t rest =>
          if rest.head? = some ')' then .ok (.single t, rest.tail)
          else
            exCase₂ (parseFieldsF f rest)
              (fun fs rest' => .ok (.cons t fs, rest'))) := rfl

/-- Parser for a sequence of complete types, consuming the whole input. -/
def parseAllF : Nat → List Char → Except SigErr (List SigType)
  | 0, _ => .error .malformedSignature
  | _ + 1, [] => .ok []
  | f + 1, c :: cs =>
    exCase₂ (parseOneF f (c :: cs)) (fun t rest =>
      exCase (parseAllF f rest) (fun ts => .ok (t :: ts)))

theorem parseAllF_zero (cs : List Char) :
    parseAllF 0 cs = .error .malformedSignature := rfl

theorem parseAllF_nil (f : Nat) : parseAllF (f + 1) [] = .ok [] := rfl

theorem parseAllF_cons (f : Nat) (c : Char) (cs : List Char) :
    parseAllF (f + 1) (c :: cs) =
      exCase₂ (parseOneF f (c :: cs)) (fun t rest =>
        exCase (parseAllF f rest) (fun ts => .ok (t :: ts))) := rfl

/-- Modelled from the spec: `parse(signature_string) -> Signature-tree`
(§4.1). -/
def parseSignature (s : String) : Except SigErr (List SigType) :=
  parseAllF (s.length + 1) s.data

/-! ## UTF-8 model

Byte-level model of Rust's UTF-8 validation (`str::from_utf8`) and lossy
conversion (`String::from_utf8_lossy`), which `file_path.rs` uses in its
`Deserialize` implementation.  Bytes and code points are `Nat`. -/

/-- A UTF-8 continuation byte. -/
def isCont (c : Nat) : Bool := 0x80 ≤ c && c ≤ 0xBF

/-- Lower bound of the first continuation byte after a three-byte lead. -/
def e1lo (b : Nat) : Nat := if b = 0xE0 then 0xA0 else 0x80

/-- Upper bound of the first continuation byte after a three-byte lead. -/
def e1hi (b : Nat) : Nat := if b = 0xED then 0x9F else 0xBF

/-- Lower bound of the first continuation byte after a four-byte lead. -/
def f1lo (b : Nat) : Nat := if b = 0xF0 then 0x90 else 0x80

/-- Upper bound of the first continuation byte after a four-byte lead. -/
def f1hi (b : Nat) : Nat := if b = 0xF4 then 0x8F else 0xBF

/-- Code point of a two-byte sequence. -/
def twoCp (b c1 : Nat) : Nat := (b - 0xC0) * 64 + (c1 - 0x80)

/-- Code point of a three-byte sequence. -/
def threeCp (b c1 c2 : Nat) : Nat :=
  (b - 0xE0) * 4096 + (c1 - 0x80) * 64 + (c2 - 0x80)

/-- Code point of a four-byte sequence. -/
def fourCp (b c1 c2 c3 : Nat) : Nat :=
  (b - 0xF0) * 262144 + (c1 - 0x80) * 4096 + (c2 - 0x80) * 64 + (c3 - 0x80)

/-- UTF-8 validity of a byte sequence, as checked by `str::from_utf8`,
with an explicit fuel argument making the recursion structural; each
step consumes at least one byte, so fuel beyond the input length never
runs out. -/
def validUtf8F : Nat → List Nat → Bool
  | 0, _ => false
  | _ + 1, [] => true
  | f + 1, b :: rest =>
    if b < 0x80 then validUtf8F f rest
    else if 0xC2 ≤ b && b ≤ 0xDF then
      match rest with
      | c1 :: r1 => isCont c1 && validUtf8F f r1
      | [] => false
    else if 0xE0 ≤ b && b ≤ 0xEF then
      match rest with
      | c1 :: c2 :: r2 =>
        (e1lo b ≤ c1 && c1 ≤ e1hi b) && isCont c2 && validUtf8F f r2
      | _ => false
    else if 0xF0 ≤ b && b ≤ 0xF4 then
      match rest with
      | c1 :: c2 :: c3 :: r3 =>
        (f1lo b ≤ c1 && c1 ≤ f1hi b) && isCont c2 && isCont c3 && validUtf8F f r3
      | _ => false
    else false

/-- UTF-8 validity of a byte sequence, as checked by `str::from_utf8`. -/
def validUtf8 (v : List Nat) : Bool := validUtf8F (v.length + 1) v

/-- Lossy UTF-8 decoding with fuel; replaces each maximal invalid
subpart with U+FFFD, as `String::from_utf8_lossy` does. -/
def decodeLossyF : Nat → List Nat → List Nat
  | 0, _ => []
  | _ + 1, [] => []
  | f + 1, b :: rest =>
    if b < 0x80 then b :: decodeLossyF f rest
    else if 0xC2 ≤ b && b ≤ 0xDF then
      match rest with
      | c1 :: r1 =>
        if isCont c1 then twoCp b c1 :: decodeLossyF f r1
        else 0xFFFD :: decodeLossyF f (c1 :: r1)
      | [] => [0xFFFD]
    else if 0xE0 ≤ b && b ≤ 0xEF then
      match rest with
      | c1 :: r1 =>
        if e1lo b ≤ c1 && c1 ≤ e1hi b then
          match r1 with
          | c2 :: r2 =>
            if isCont c2 then threeCp b c1 c2 :: decodeLossyF f r2
            else 0xFFFD :: decodeLossyF f (c2 :: r2)
          | [] => [0xFFFD]
        else 0xFFFD :: decodeLossyF f (c1 :: r1)
      | [] => [0xFFFD]
    else if 0xF0 ≤ b && b ≤ 0xF4 then
      match rest with
      | c1 :: r1 =>
        if f1lo b ≤ c1 && c1 ≤ f1hi b then
          match r1 with
          | c2 :: r2 =>
            if isCont c2 then
              match r2 with
              | c3 :: r3 =>
                if isCont c3 then fourCp b c1 c2 c3 :: decodeLossyF f r3
                else 0xFFFD :: decodeLossyF f (c3 :: r3)
              | [] => [0xFFFD]
            else 0xFFFD :: decodeLossyF f (c2 :: r2)
          | [] => [0xFFFD]
        else 0xFFFD :: decodeLossyF f (c1 :: r1)
      | [] => [0xFFFD]
    else 0xFFFD :: decodeLossyF f rest

/-- Lossy UTF-8 decoding of a byte sequence to the sequence of code
points of the resulting string. -/
def decodeLossy (v : List Nat) : List Nat := decodeLossyF (v.length + 1) v

/-- A Unicode scalar value: below 0x110000 and not a surrogate. -/
def isScalar (c : Nat) : Bool := c < 0x110000 && !(0xD800 ≤ c && c ≤ 0xDFFF)

/-- UTF-8 encoding of one code point. -/
def encodeCp (c : Nat) : List Nat :=
  if c < 0x80 then [c]
  else if c < 0x800 then [0xC0 + c / 64, 0x80 + c % 64]
  else if c < 0x10000 then
    [0xE0 + c / 4096, 0x80 + c / 64 % 64, 0x80 + c % 64]
  else
    [0xF0 + c / 262144, 0x80 + c / 4096 % 64, 0x80 + c / 64 % 64, 0x80 + c % 64]

/-- UTF-8 encoding of a sequence of code points, as the byte contents of
a Rust `String` built from those characters. -/
def encodeUtf8 (cps : List Nat) : List Nat :=
  (cps.map encodeCp).flatten

/-! ## FilePath model

Embedded from `src/zvariant/src/file_path.rs`.  A Rust `Path`/`PathBuf`
is modelled by its sequence of OS-encoded bytes
(`as_os_str().as_encoded_bytes()`); a Rust `String` by the UTF-8 bytes
of its characters. -/

/-- Model of `Cow<'f, Path>`: borrowed or owned, carrying the
underlying path's OS-encoded bytes. -/
inductive CowPath where
  | borrowed (bytes : List Nat)
  | owned (bytes : List Nat)
  deriving DecidableEq, Repr

/-- The dereferenced path bytes of a `Cow<Path>` (`Deref`, and also
`into_owned` up to allocation). -/
def CowPath.bytes : CowPath → List Nat
  | .borrowed b => b
  | .owned b => b

/-- `FilePath<'f>(Cow<'f, Path>)` from `file_path.rs` line 29. -/
structure FilePath where
  inner : CowPath
  deriving DecidableEq, Repr

/-- The derived `PartialEq` on `FilePath` compares the wrapped
`Cow<Path>` values, which Rust compares by dereferencing to `Path`,
i.e. by the underlying bytes, regardless of borrowed/owned variant. -/
def filePathEq (p q : FilePath) : Bool := p.inner.bytes == q.inner.bytes

/-- `From<&Path> for FilePath` (file_path.rs lines 32-36):
`Self(Cow::Borrowed(value))`. -/
def filePathFromPath (p : List Nat) : FilePath := ⟨.borrowed p⟩

/-- `From<PathBuf> for FilePath` (file_path.rs lines 38-42):
`Self(Cow::Owned(value))`. -/
def filePathFromPathBuf (p : List Nat) : FilePath := ⟨.owned p⟩

/-- `PathBuf::from(&str)`: an `OsString` built from a UTF-8 string
keeps exactly the string's bytes. -/
def pathBufFromStr (s : List Nat) : List Nat := s

/-- `From<&str> for FilePath` (file_path.rs lines 44-48):
`Self(Cow::Owned(PathBuf::from(value)))`. -/
def filePathFromStr (s : List Nat) : FilePath := ⟨.owned (pathBufFromStr s)⟩

/-- `Into<PathBuf> for FilePath` (file_path.rs lines 93-97):
`PathBuf::from(self.0.into_owned())`. -/
def filePathIntoPathBuf (fp : FilePath) : List Nat := fp.inner.bytes

/-- `Serialize for FilePath` (file_path.rs lines 77-84):
`serializer.serialize_bytes(&self.0.as_os_str().as_encoded_bytes())` —
the raw OS bytes, with no trailing nul appended. -/
def filePathSerialize (fp : FilePath) : List Nat := fp.inner.bytes

/-- `Deserialize for FilePath` (file_path.rs lines 50-75):
`FilePath::from(PathBuf::from(String::from_utf8_lossy(v).into_owned()))`
applied to the incoming byte array `v`. -/
def filePathDeserialize (v : List Nat) : FilePath :=
  ⟨.owned (pathBufFromStr (encodeUtf8 (decodeLossy v)))⟩

/-! ## Variant value model

Modelled from the spec (§3, §4.2): a tagged union capable of holding
any D-Bus value.  Strings hold their UTF-8 bytes; a double holds its
raw 8-byte payload; dict-entry keys are restricted to basic values, as
the wire format demands. -/

inductive BasicValue where
  | byte (n : Nat)
  | boolean (b : Bool)
  | int16 (n : Int)
  | uint16 (n : Nat)
  | int32 (n : Int)
  | uint32 (n : Nat)
  | int64 (n : Int)
  | uint64 (n : Nat)
  | double (bits : Nat)
  | string (bytes : List Nat)
  | objectPath (bytes : List Nat)
  | signatureV (ts : List SigType)
  deriving DecidableEq, Repr

mutual
inductive Value where
  | basicV (b : BasicValue)
  | arrayV (elemTy : SigType) (elems : ValueList)
  | structV (first : Value) (rest : ValueList)
  | dictEntryV (key : BasicValue) (value : Value)
  | variantV (v : Value)
  deriving DecidableEq, Repr
inductive ValueList where
  | nil
  | cons (head : Value) (tail : ValueList)
  deriving DecidableEq, Repr
end

/-- The signature code of a basic value's type. -/
def basicSigOf : BasicValue → BasicType
  | .byte _ => .byte
  | .boolean _ => .boolean
  | .int16 _ => .int16
  | .uint16 _ => .uint16
  | .int32 _ => .int32
  | .uint32 _ => .uint32
  | .int64 _ => .int64
  | .uint64 _ => .uint64
  | .double _ => .double
  | .string _ => .string
  | .objectPath _ => .objectPath
  | .signatureV _ => .signatureT

/-- Builds the nonempty signature field list of a struct from a first
type and the remaining types. -/
def toSigList (t : SigType) : List SigType → SigList
  | [] => .single t
  | h :: rest => .cons t (toSigList h rest)

mutual
/-- Modelled from the spec: the signature derived automatically from a
native value's shape (§4.2). -/
def sigOf : Value → SigType
  | .basicV b => .basic (basicSigOf b)
  | .arrayV t _ => .array t
  | .structV f rest => .structT (toSigList (sigOf f) (sigOfList rest))
  | .dictEntryV k v => .dictEntry (basicSigOf k) (sigOf v)
  | .variantV _ => .variant
def sigOfList : ValueList → List SigType
  | .nil => []
  | .cons h t => sigOf h :: sigOfList t
end

mutual
/-- Container nesting depth of a value (§4.2): primitives are at depth
zero, each array/struct/dict-entry/variant layer adds one. -/
def vdepth : Value → Nat
  | .basicV _ => 0
  | .arrayV _ elems => 1 + vdepthList elems
  | .structV f rest => 1 + max (vdepth f) (vdepthList rest)
  | .dictEntryV _ v => 1 + vdepth v
  | .variantV v => 1 + vdepth v
def vdepthList : ValueList → Nat
  | .nil => 0
  | .cons h t => max (vdepth h) (vdepthList t)
end

/-- Errors of the variant/container constructors and accessors (§4.2,
§4.3, §7). -/
inductive VariantErr where
  | signatureMismatch
  | nestingTooDeep
  | heterogeneousArray
  deriving DecidableEq, Repr

/-- Modelled from the spec: a Variant holds exactly one concrete value
plus the signature describing it (§3). -/
structure Variant where
  value : Value
  sig : SigType
  deriving DecidableEq, Repr

/-- Modelled from the spec: constructing a Variant from a native value
derives the signature automatically and enforces the protocol's maximum
container nesting depth of 64, failing with `NestingTooDeep` when
exceeded (§4.2); the variant wrapper itself is one container layer. -/
def Variant.fromNative (v : Value) : Except VariantErr Variant :=
  if 1 + vdepth v ≤ 64 then .ok ⟨v, sigOf v⟩ else .error .nestingTooDeep

/-- Modelled from the spec: `get::<T>()` fails with `SignatureMismatch`
if T's required signature differs from the stored signature, checked by
structural comparison, not by value inspection (§4.2). -/
def Variant.get (t : SigType) (var : Variant) : Except VariantErr Value :=
  if var.sig = t then .ok var.value else .error .signatureMismatch

/-- Whether every element of a list has the given signature. -/
def allSig : ValueList → SigType → Bool
  | .nil, _ => true
  | .cons h t, ty => (sigOf h == ty) && allSig t ty

/-- Modelled from the spec: constructing an Array from a sequence fails
with `HeterogeneousArray` if element signatures differ (§4.3), and
enforces the nesting-depth limit like every container constructor
(§4.2). -/
def mkArray (t : SigType) (elems : ValueList) : Except VariantErr Value :=
  if ¬allSig elems t then .error .heterogeneousArray
  else if 1 + vdepthList elems ≤ 64 then .ok (.arrayV t elems)
  else .error .nestingTooDeep

/-- Modelled from the spec: constructing a Structure enforces the
nesting-depth limit (§4.2). -/
def mkStruct (f : Value) (rest : ValueList) : Except VariantErr Value :=
  if 1 + max (vdepth f) (vdepthList rest) ≤ 64 then .ok (.structV f rest)
  else .error .nestingTooDeep

/-- A chain of n nested variant values around a byte. -/
def variantChain : Nat → Value
  | 0 => .basicV (.byte 0)
  | n + 1 => .variantV (variantChain n)

/-! ## Dict model

Modelled from the spec (§4.3): a Dict is constructed by consuming an
ordered sequence of DictEntry values; `inner()` exposes a key-to-value
mapping where later entries overwrite earlier ones with equal keys.
The mapping is modelled as an association list with insert-or-replace,
as a hash map behaves observationally. -/

/-- Insert-or-replace into the key-to-value mapping. -/
def hmInsert : List (BasicValue × Value) → BasicValue → Value →
    List (BasicValue × Value)
  | [], k, v => [(k, v)]
  | (k', v') :: rest, k, v =>
    if k' = k then (k, v) :: rest else (k', v') :: hmInsert rest k v

/-- Lookup in the key-to-value mapping. -/
def hmLookup : List (BasicValue × Value) → BasicValue → Option Value
  | [], _ => none
  | (k', v') :: rest, k => if k' = k then some v' else hmLookup rest k

/-- Modelled from the spec: `Dict::inner()` — the mapping obtained by
inserting the decoded DictEntry sequence in order. -/
def dictInner (entries : List (BasicValue × Value)) : List (BasicValue × Value) :=
  entries.foldl (fun m e => hmInsert m e.1 e.2) []

/-! ## Connection model

Modelled from the spec (§4.5): the connection state machine, the serial
allocation, and `call_method`'s reply-correlation loop.  The transport
is modelled as the list of messages subsequently read from it; the
connection module itself is not under src/. -/

inductive ConnState where
  | connecting | authenticating | ready | closed
  deriving DecidableEq, Repr

inductive WireMsgType where
  | methodCall | methodReturn | errorMsg | signal
  deriving DecidableEq, Repr

/-- An incoming message as seen by the reply-correlation loop. -/
structure WireMsg where
  msgType : WireMsgType
  replySerial : Option Nat
  errorName : List Nat
  body : List Value
  deriving DecidableEq, Repr

/-- Modelled from the spec: connection-level errors (§7); `MethodError`
carries the peer-reported error name and body. -/
inductive ConnectionErr where
  | transportError
  | authError
  | handshakeError
  | ioFailure
  | methodError (name : List Nat) (body : List Value)
  deriving DecidableEq, Repr

/-- Modelled from the spec: a Connection owns a monotonically
increasing serial counter, the unique name obtained from the Hello
handshake, and a queue of buffered unsolicited messages (§3, §5). -/
structure Connection where
  state : ConnState
  serial : Nat
  uniqueName : Option (List Nat)
  queue : List WireMsg
  deriving DecidableEq, Repr

/-- Whether a message is the reply (method return or error) to the
given serial. -/
def isReplyTo (serial : Nat) (m : WireMsg) : Bool :=
  (m.msgType == .methodReturn || m.msgType == .errorMsg) &&
    m.replySerial == some serial

/-- Modelled from the spec: read messages from the transport,
buffering every message that is not the awaited reply, until the
message with the matching reply-serial arrives; transport exhaustion is
a transport-level failure (§4.5). -/
def awaitReply (serial : Nat) : List WireMsg →
    Except ConnectionErr (WireMsg × List WireMsg)
  | [] => .error .ioFailure
  | m :: rest =>
    if isReplyTo serial m then .ok (m, [])
    else
      match awaitReply serial rest with
      | .ok (r, q) => .ok (r, m :: q)
      | .error e => .error e

/-- Modelled from the spec: `call_method` allocates the next serial,
writes the encoded call, then blocks reading messages until the reply
with the matching serial arrives; a method-return reply yields its
body, an error-type reply fails with `MethodError(error_name, body)` —
a non-fatal outcome — and unrelated messages are queued, not dropped
(§4.5).  `incoming` is the list of messages the transport will yield. -/
def callMethod (c : Connection) (incoming : List WireMsg) :
    Except ConnectionErr (List Value) × Connection :=
  if c.state ≠ .ready then (.error .ioFailure, c)
  else
    match awaitReply c.serial incoming with
    | .error e => (.error e, { c with serial := c.serial + 1, state := .closed })
    | .ok (m, skipped) =>
      match m.msgType with
      | .errorMsg =>
        (.error (.methodError m.errorName m.body),
          { c with serial := c.serial + 1, queue := c.queue ++ skipped })
      | _ => (.ok m.body, { c with serial := c.serial + 1, queue := c.queue ++ skipped })

/-- Modelled from the spec: the bus policy reply to a second `Hello` on
an already-registered connection — an error-type message carrying a
D-Bus error name, correlated to the call's serial (§4.5, §8). -/
def secondHelloReply (serial : Nat) (errName : List Nat) (body : List Value) :
    WireMsg :=
  { msgType := .errorMsg, replySerial := some serial, errorName := errName,
    body := body }

/-! ## Wire-format encoder

Modelled from the spec (§4.4): alignment-aware serialization of values
into the D-Bus byte stream, with alignment always measured from offset
zero of the whole message buffer. -/

inductive Endian where
  | little | big
  deriving DecidableEq, Repr

/-- Little-endian bytes of a w-byte word. -/
def encodeWordLE : Nat → Nat → List Nat
  | 0, _ => []
  | w + 1, x => x % 256 :: encodeWordLE w (x / 256)

/-- The bytes of a w-byte word in the message's declared endianness. -/
def encodeWord (e : Endian) (w x : Nat) : List Nat :=
  match e with
  | .little => encodeWordLE w x
  | .big => (encodeWordLE w x).reverse

/-- Value of little-endian bytes. -/
def wordOfBytesLE : List Nat → Nat
  | [] => 0
  | b :: rest => b + 256 * wordOfBytesLE rest

/-- Value of bytes in the given endianness. -/
def wordOfBytes (e : Endian) (bs : List Nat) : Nat :=
  match e with
  | .little => wordOfBytesLE bs
  | .big => wordOfBytesLE bs.reverse

/-- Two's-complement representation of a signed integer in w bytes. -/
def toTwos (w : Nat) (i : Int) : Nat := (i % ((2 : Int) ^ (8 * w))).toNat

/-- Signed integer of a w-byte two's-complement representation. -/
def fromTwos (w : Nat) (n : Nat) : Int :=
  if n < 2 ^ (8 * w - 1) then (n : Int) else (n : Int) - (2 : Int) ^ (8 * w)

/-- Modelled from the spec: alignment requirement per type (§4.1) — 1
for byte and signature (and variant, whose header is a signature), 2
for 16-bit integers, 4 for 32-bit integers, boolean and
length-prefixed strings, 8 for 64-bit quantities, double, struct and
dict-entry; an array aligns as its element does. -/
def alignOf : SigType → Nat
  | .basic .byte => 1
  | .basic .boolean => 4
  | .basic .int16 => 2
  | .basic .uint16 => 2
  | .basic .int32 => 4
  | .basic .uint32 => 4
  | .basic .int64 => 8
  | .basic .uint64 => 8
  | .basic .double => 8
  | .basic .string => 4
  | .basic .objectPath => 4
  | .basic .signatureT => 1
  | .array t => alignOf t
  | .structT _ => 8
  | .dictEntry _ _ => 8
  | .variant => 1

/-- Number of padding bytes needed to advance `off` to a multiple of
`a`. -/
def padLen (off a : Nat) : Nat := (a - off % a) % a

/-- The smallest multiple of `a` that is at least `off`. -/
def alignUp (off a : Nat) : Nat := off + padLen off a

/-- Zero padding bytes up to the next multiple of `a`. -/
def padBytes (off a : Nat) : List Nat := List.replicate (padLen off a) 0

/-- Position of an array's 4-byte length prefix: the value is aligned
to its element alignment and the length prefix is always 4-byte
aligned (§4.1). -/
def arrayLenPos (off a : Nat) : Nat := alignUp (alignUp off a) 4

/-- Position of an array's first element: after the length prefix,
padded to the element's alignment (§4.4). -/
def arrayBodyPos (off a : Nat) : Nat := alignUp (arrayLenPos off a + 4) a

/-- Modelled from the spec: wire encoding of a basic value at absolute
offset `off` (§4.4) — fixed-width primitives in the declared
endianness, strings and object paths length-prefixed with a trailing
nul not counted in the length, signatures with a 1-byte length. -/
def encodeBasic (e : Endian) (off : Nat) : BasicValue → List Nat
  | .byte n => [n]
  | .boolean b => padBytes off 4 ++ encodeWord e 4 (if b then 1 else 0)
  | .int16 i => padBytes off 2 ++ encodeWord e 2 (toTwos 2 i)
  | .uint16 n => padBytes off 2 ++ encodeWord e 2 n
  | .int32 i => padBytes off 4 ++ encodeWord e 4 (toTwos 4 i)
  | .uint32 n => padBytes off 4 ++ encodeWord e 4 n
  | .int64 i => padBytes off 8 ++ encodeWord e 8 (toTwos 8 i)
  | .uint64 n => padBytes off 8 ++ encodeWord e 8 n
  | .double bits => padBytes off 8 ++ encodeWord e 8 bits
  | .string bs => padBytes off 4 ++ encodeWord e 4 bs.length ++ bs ++ [0]
  | .objectPath bs => padBytes off 4 ++ encodeWord e 4 bs.length ++ bs ++ [0]
  | .signatureV ts =>
    (signatureChars ts).length :: ((signatureChars ts).map Char.toNat ++ [0])

mutual
/-- Modelled from the spec: wire encoding of a value at absolute offset
`off` (§4.4); containers pad to their alignment, arrays carry the byte
length of their element region, variants are prefixed by their
single-complete-type signature. -/
def encodeValue (e : Endian) (off : Nat) : Value → List Nat
  | .basicV b => encodeBasic e off b
  | .arrayV t elems =>
    padBytes off (alignOf t) ++
      (padBytes (alignUp off (alignOf t)) 4 ++
        (encodeWord e 4 (encodeList e (arrayBodyPos off (alignOf t)) elems).length ++
          (padBytes (arrayLenPos off (alignOf t) + 4) (alignOf t) ++
            encodeList e (arrayBodyPos off (alignOf t)) elems)))
  | .structV f rest =>
    padBytes off 8 ++
      (encodeValue e (alignUp off 8) f ++
        encodeList e (alignUp off 8 + (encodeValue e (alignUp off 8) f).length) rest)
  | .dictEntryV k v =>
    padBytes off 8 ++
      (encodeBasic e (alignUp off 8) k ++
        encodeValue e (alignUp off 8 + (encodeBasic e (alignUp off 8) k).length) v)
  | .variantV v =>
    (sigTypeChars (sigOf v)).length ::
      ((sigTypeChars (sigOf v)).map Char.toNat ++
        (0 :: encodeValue e (off + 2 + (sigTypeChars (sigOf v)).length) v))
/-- Wire encoding of consecutive values starting at absolute offset
`off`, each aligned to its own requirement. -/
def encodeList (e : Endian) (off : Nat) : ValueList → List Nat
  | .nil => []
  | .cons h t =>
    encodeValue e off h ++ encodeList e (off + (encodeValue e off h).length) t
end

/-- Wire encoding of a message body: values back to back, each aligned
to its own requirement relative to the whole message buffer (§4.4). -/
def encodeBody (e : Endian) (off : Nat) : List Value → List Nat
  | [] => []
  | v :: vs =>
    encodeValue e off v ++ encodeBody e (off + (encodeValue e off v).length) vs

/-! ## Wire-format decoder

Modelled from the spec (§4.4): decoding mirrors the encoder exactly,
failing with `UnexpectedEof` when the buffer is shorter than a field's
declared length, `InvalidUtf8` on invalid string bytes,
`MissingNulTerminator` when a trailing nul is absent or misplaced,
`SignatureBodyMismatch` when the body does not match the declared body
signature, `MessageTooLarge` past the 128 MiB body cap (§6), and
`NestingTooDeep` past the protocol's container nesting limit of 64
(§4.2). -/

inductive DecErr where
  | unexpectedEof
  | invalidUtf8
  | missingNulTerminator
  | signatureBodyMismatch
  | messageTooLarge
  | malformedSignature
  | malformedHeader
  | nestingTooDeep
  deriving DecidableEq, Repr

/-- Case analysis on an `Except` of a triple, propagating the error. -/
def exCase₃ {ε α β γ δ : Type _} (x : Except ε (α × β × γ))
    (f : α → β → γ → Except ε δ) : Except ε δ :=
  match x with
  | .ok (a, b, c) => f a b c
  | .error e => .error e

theorem exCase₃_ok {ε α β γ δ : Type _} (a : α) (b : β) (c : γ)
    (f : α → β → γ → Except ε δ) : exCase₃ (.ok (a, b, c)) f = f a b c := rfl

theorem exCase₃_error {ε α β γ δ : Type _} (e : ε) (f : α → β → γ → Except ε δ) :
    exCase₃ (.error e : Except ε (α × β × γ)) f = .error e := rfl

theorem exCase₃_eq_ok {ε α β γ δ : Type _} {x : Except ε (α × β × γ)}
    {f : α → β → γ → Except ε δ} {r : δ} (h : exCase₃ x f = .ok r) :
    ∃ a b c, x = .ok (a, b, c) ∧ f a b c = .ok r := by
  match x with
  | .ok (a, b, c) => exact ⟨a, b, c, rfl, h⟩
  | .error e => exact Except.noConfusion h

/-- Reads exactly n bytes from the stream. -/
def readBytes (n : Nat) (s : List Nat) : Except DecErr (List Nat × List Nat) :=
  if n ≤ s.length then .ok (s.take n, s.drop n) else .error .unexpectedEof

/-- Skips the padding bytes up to the next multiple of `a`, returning
the new absolute offset and remaining stream. -/
def skipPad (a off : Nat) (s : List Nat) : Except DecErr (Nat × List Nat) :=
  if padLen off a ≤ s.length then .ok (alignUp off a, s.drop (padLen off a))
  else .error .unexpectedEof

/-- Modelled from the spec: decoding of one basic value of the given
basic type at absolute offset `off` (§4.4). -/
def decodeBasic (e : Endian) (off : Nat) (s : List Nat) :
    BasicType → Except DecErr (BasicValue × Nat × List Nat)
  | .byte =>
    match s with
    | b :: s1 => .ok (.byte b, off + 1, s1)
    | [] => .error .unexpectedEof
  | .boolean =>
    exCase₂ (skipPad 4 off s) fun off1 s1 =>
      exCase₂ (readBytes 4 s1) fun bs s2 =>
        .ok (.boolean (wordOfBytes e bs != 0), off1 + 4, s2)
  | .int16 =>
    exCase₂ (skipPad 2 off s) fun off1 s1 =>
      exCase₂ (readBytes 2 s1) fun bs s2 =>
        .ok (.int16 (fromTwos 2 (wordOfBytes e bs)), off1 + 2, s2)
  | .uint16 =>
    exCase₂ (skipPad 2 off s) fun off1 s1 =>
      exCase₂ (readBytes 2 s1) fun bs s2 =>
        .ok (.uint16 (wordOfBytes e bs), off1 + 2, s2)
  | .int32 =>
    exCase₂ (skipPad 4 off s) fun off1 s1 =>
      exCase₂ (readBytes 4 s1) fun bs s2 =>
        .ok (.int32 (fromTwos 4 (wordOfBytes e bs)), off1 + 4, s2)
  | .uint32 =>
    exCase₂ (skipPad 4 off s) fun off1 s1 =>
      exCase₂ (readBytes 4 s1) fun bs s2 =>
        .ok (.uint32 (wordOfBytes e bs), off1 + 4, s2)
  | .int64 =>
    exCase₂ (skipPad 8 off s) fun off1 s1 =>
      exCase₂ (readBytes 8 s1) fun bs s2 =>
        .ok (.int64 (fromTwos 8 (wordOfBytes e bs)), off1 + 8, s2)
  | .uint64 =>
    exCase₂ (skipPad 8 off s) fun off1 s1 =>
      exCase₂ (readBytes 8 s1) fun bs s2 =>
        .ok (.uint64 (wordOfBytes e bs), off1 + 8, s2)
  | .double =>
    exCase₂ (skipPad 8 off s) fun off1 s1 =>
      exCase₂ (readBytes 8 s1) fun bs s2 =>
        .ok (.double (wordOfBytes e bs), off1 + 8, s2)
  | .string =>
    exCase₂ (skipPad 4 off s) fun off1 s1 =>
      exCase₂ (readBytes 4 s1) fun lenB s2 =>
        exCase₂ (readBytes (wordOfBytes e lenB) s2) fun sb s3 =>
          if validUtf8 sb then
            match s3 with
            | 0 :: s4 => .ok (.string sb, off1 + 4 + wordOfBytes e lenB + 1, s4)
            | _ :: _ => .error .missingNulTerminator
            | [] => .error .unexpectedEof
          else .error .invalidUtf8
  | .objectPath =>
    exCase₂ (skipPad 4 off s) fun off1 s1 =>
      exCase₂ (readBytes 4 s1) fun lenB s2 =>
        exCase₂ (readBytes (wordOfBytes e lenB) s2) fun sb s3 =>
          if validUtf8 sb then
            match s3 with
            | 0 :: s4 => .ok (.objectPath sb, off1 + 4 + wordOfBytes e lenB + 1, s4)
            | _ :: _ => .error .missingNulTerminator
            | [] => .error .unexpectedEof
          else .error .invalidUtf8
  | .signatureT =>
    match s with
    | l :: s1 =>
      exCase₂ (readBytes l s1) fun sb s2 =>
        match s2 with
        | 0 :: s3 =>
          match parseAllF (l + 1) (sb.map Char.ofNat) with
          | .ok ts => .ok (.signatureV ts, off + 1 + l + 1, s3)
          | .error _ => .error .malformedSignature
        | _ :: _ => .error .missingNulTerminator
        | [] => .error .unexpectedEof
    | [] => .error .unexpectedEof

/-- Decoding of consecutive struct fields driven by the field-type
list, with the value decoder passed as a parameter. -/
def decodeFieldsWith
    (dv : Endian → SigType → Nat → List Nat → Except DecErr (Value × Nat × List Nat))
    (e : Endian) :
    SigList → Nat → List Nat → Except DecErr ((Value × ValueList) × Nat × List Nat)
  | .single t, off, s =>
    exCase₃ (dv e t off s) fun v off1 s1 => .ok ((v, .nil), off1, s1)
  | .cons h t, off, s =>
    exCase₃ (dv e h off s) fun v off1 s1 =>
      exCase₃ (decodeFieldsWith dv e t off1 s1) fun p off2 s2 =>
        .ok ((v, .cons p.1 p.2), off2, s2)

/-- Decoding of array elements until the element region's end offset is
reached, with a byte-budget fuel bounding the iteration count; an
overshoot of the declared region is a framing error. -/
def decodeElemsWith
    (dv : Endian → SigType → Nat → List Nat → Except DecErr (Value × Nat × List Nat))
    (e : Endian) (t : SigType) :
    Nat → Nat → Nat → List Nat → Except DecErr (ValueList × Nat × List Nat)
  | 0, endOff, off, s =>
    if off = endOff then .ok (.nil, off, s) else .error .unexpectedEof
  | f + 1, endOff, off, s =>
    if off = endOff then .ok (.nil, off, s)
    else
      exCase₃ (dv e t off s) fun v off1 s1 =>
        exCase₃ (decodeElemsWith dv e t f endOff off1 s1) fun vs off2 s2 =>
          .ok (.cons v vs, off2, s2)

/-- Modelled from the spec: decoding of one value of the given type at
absolute offset `off` (§4.4), with the fuel argument enforcing the
protocol's container nesting limit — each container level consumes one
unit, and exhaustion reports `NestingTooDeep` (§4.2). -/
def decodeValueP : Nat → Endian → SigType → Nat → List Nat →
    Except DecErr (Value × Nat × List Nat)
  | 0, _, _, _, _ => .error .nestingTooDeep
  | fv + 1, e, t, off, s =>
    match t with
    | .basic bt =>
      exCase₃ (decodeBasic e off s bt) fun b off1 s1 => .ok (.basicV b, off1, s1)
    | .array t' =>
      exCase₂ (skipPad (alignOf t') off s) fun off1 s1 =>
        exCase₂ (skipPad 4 off1 s1) fun off2 s2 =>
          exCase₂ (readBytes 4 s2) fun lenB s3 =>
            exCase₂ (skipPad (alignOf t') (off2 + 4) s3) fun off3 s4 =>
              exCase₃ (decodeElemsWith (decodeValueP fv) e t'
                  (wordOfBytes e lenB + 1) (off3 + wordOfBytes e lenB) off3 s4)
                fun elems off4 s5 => .ok (.arrayV t' elems, off4, s5)
    | .structT fl =>
      exCase₂ (skipPad 8 off s) fun off1 s1 =>
        exCase₃ (decodeFieldsWith (decodeValueP fv) e fl off1 s1) fun p off2 s2 =>
          .ok (.structV p.1 p.2, off2, s2)
    | .dictEntry kb vt =>
      exCase₂ (skipPad 8 off s) fun off1 s1 =>
        exCase₃ (decodeBasic e off1 s1 kb) fun k off2 s2 =>
          exCase₃ (decodeValueP fv e vt off2 s2) fun v off3 s3 =>
            .ok (.dictEntryV k v, off3, s3)
    | .variant =>
      match s with
      | l :: s1 =>
        exCase₂ (readBytes l s1) fun sb s2 =>
          match s2 with
          | 0 :: s3 =>
            match parseAllF (l + 1) (sb.map Char.ofNat) with
            | .ok [t'] =>
              exCase₃ (decodeValueP fv e t' (off + 1 + l + 1) s3) fun v off1 s4 =>
                .ok (.variantV v, off1, s4)
            | .ok _ => .error .malformedSignature
            | .error _ => .error .malformedSignature
          | _ :: _ => .error .missingNulTerminator
          | [] => .error .unexpectedEof
      | [] => .error .unexpectedEof

/-- An upper bound on the wire size of a basic value at any offset. -/
def bbound : BasicValue → Nat
  | .byte _ => 1
  | .boolean _ => 7
  | .int16 _ => 3
  | .uint16 _ => 3
  | .int32 _ => 7
  | .uint32 _ => 7
  | .int64 _ => 15
  | .uint64 _ => 15
  | .double _ => 15
  | .string bs => bs.length + 8
  | .objectPath bs => bs.length + 8
  | .signatureV ts => (signatureChars ts).length + 2

mutual
/-- An upper bound on the wire size of a value at any offset. -/
def vbound : Value → Nat
  | .basicV b => bbound b
  | .arrayV _ elems => 21 + vboundList elems
  | .structV f rest => 7 + vbound f + vboundList rest
  | .dictEntryV k v => 7 + bbound k + vbound v
  | .variantV v => 2 + (sigTypeChars (sigOf v)).length + vbound v
/-- An upper bound on the wire size of consecutive values. -/
def vboundList : ValueList → Nat
  | .nil => 0
  | .cons h t => vbound h + vboundList t
end

/-- Wire well-formedness of a basic value: numeric fields in range,
string bytes valid UTF-8 with a 32-bit length, signatures shorter than
256 bytes (§4.4). -/
def bwf : BasicValue → Bool
  | .byte n => decide (n < 256)
  | .boolean _ => true
  | .int16 i => decide (-(2 ^ 15) ≤ i ∧ i < 2 ^ 15)
  | .uint16 n => decide (n < 2 ^ 16)
  | .int32 i => decide (-(2 ^ 31) ≤ i ∧ i < 2 ^ 31)
  | .uint32 n => decide (n < 2 ^ 32)
  | .int64 i => decide (-(2 ^ 63) ≤ i ∧ i < 2 ^ 63)
  | .uint64 n => decide (n < 2 ^ 64)
  | .double b => decide (b < 2 ^ 64)
  | .string bs => validUtf8 bs && decide (bs.length < 4294967296)
  | .objectPath bs => validUtf8 bs && decide (bs.length < 4294967296)
  | .signatureV ts => decide ((signatureChars ts).length < 256)

mutual
/-- Wire well-formedness of a value: basic components well formed,
arrays homogeneous with a 32-bit element-region size, variant
signatures shorter than 256 bytes. -/
def vwf : Value → Bool
  | .basicV b => bwf b
  | .arrayV t elems =>
    allSig elems t && (vwfList elems && decide (vboundList elems < 4294967296))
  | .structV f rest => vwf f && vwfList rest
  | .dictEntryV k v => bwf k && vwf v
  | .variantV v => vwf v && decide ((sigTypeChars (sigOf v)).length < 256)
/-- Wire well-formedness of each value in a list. -/
def vwfList : ValueList → Bool
  | .nil => true
  | .cons h t => vwf h && vwfList t
end

/-- Modelled from the spec: a message with its fixed header quantities,
header-field set (field code paired with the field's value, carried in
a variant on the wire) and body values (§4.4). -/
structure Message where
  endian : Endian
  msgType : Nat
  flags : Nat
  protoVer : Nat
  serial : Nat
  fields : List (Nat × Value)
  body : List Value
  deriving DecidableEq, Repr

/-- The endianness marker byte: ASCII l or B (§4.4). -/
def endianMarker : Endian → Nat
  | .little => 108
  | .big => 66

/-- Wire bytes of one header-field entry: padding to the 8-byte struct
boundary, the field code byte, then the value as a variant. -/
def fieldEntry (e : Endian) (off c : Nat) (v : Value) : List Nat :=
  padBytes off 8 ++ (c :: encodeValue e (alignUp off 8 + 1) (.variantV v))

/-- Wire bytes of the header-field array's element region. -/
def encodeFields (e : Endian) : Nat → List (Nat × Value) → List Nat
  | _, [] => []
  | off, (c, v) :: rest =>
    fieldEntry e off c v ++
      encodeFields e (off + (fieldEntry e off c v).length) rest

/-- The declared body signature: the value of the first header field
with code 8, or empty when absent. -/
def declaredOf (fields : List (Nat × Value)) : List SigType :=
  match fields.find? (fun p => p.1 == 8) with
  | some (_, .basicV (.signatureV ts)) => ts
  | _ => []

/-- Modelled from the spec: wire encoding of a whole message — the
16-byte fixed header (endianness marker, type, flags, protocol version,
body length, serial, field-region length), the header-field entries,
padding to the 8-byte boundary, then the body (§4.4). -/
def encodeMessage (m : Message) : List Nat :=
  [endianMarker m.endian, m.msgType, m.flags, m.protoVer] ++
    (encodeWord m.endian 4
      (encodeBody m.endian
        (alignUp (16 + (encodeFields m.endian 16 m.fields).length) 8)
        m.body).length ++
    (encodeWord m.endian 4 m.serial ++
    (encodeWord m.endian 4 (encodeFields m.endian 16 m.fields).length ++
    (encodeFields m.endian 16 m.fields ++
    (padBytes (16 + (encodeFields m.endian 16 m.fields).length) 8 ++
      encodeBody m.endian
        (alignUp (16 + (encodeFields m.endian 16 m.fields).length) 8)
        m.body)))))

/-- Decoding of header-field entries until the declared end of the
field region, with a byte-budget fuel bounding the iteration count. -/
def decodeFieldEntriesWith
    (dv : Endian → SigType → Nat → List Nat → Except DecErr (Value × Nat × List Nat))
    (e : Endian) :
    Nat → Nat → Nat → List Nat → Except DecErr (List (Nat × Value) × Nat × List Nat)
  | 0, endOff, off, s =>
    if off = endOff then .ok ([], off, s) else .error .unexpectedEof
  | f + 1, endOff, off, s =>
    if off = endOff then .ok ([], off, s)
    else
      exCase₂ (skipPad 8 off s) fun off1 s1 =>
        match s1 with
        | c :: s2 =>
          exCase₃ (dv e .variant (off1 + 1) s2) fun v off2 s3 =>
            match v with
            | .variantV inner =>
              exCase₃ (decodeFieldEntriesWith dv e f endOff off2 s3)
                fun entries off3 s4 => .ok ((c, inner) :: entries, off3, s4)
            | _ => .error .malformedHeader
        | [] => .error .unexpectedEof

/-- Decoding of the body values, one per type of the declared body
signature. -/
def decodeBodyValsWith
    (dv : Endian → SigType → Nat → List Nat → Except DecErr (Value × Nat × List Nat))
    (e : Endian) :
    List SigType → Nat → List Nat → Except DecErr (List Value × Nat × List Nat)
  | [], off, s => .ok ([], off, s)
  | t :: ts, off, s =>
    exCase₃ (dv e t off s) fun v off1 s1 =>
      exCase₃ (decodeBodyValsWith dv e ts off1 s1) fun vs off2 s2 =>
        .ok (v :: vs, off2, s2)

/-- Modelled from the spec: decoding of a whole message, mirroring
`encodeMessage` — it rejects a body length past 128 MiB with
`MessageTooLarge` (§6), decodes the header fields, then decodes the
body against the declared body signature and fails with
`SignatureBodyMismatch` when the body region does not match it
exactly (§4.4). The value decoder runs with fuel 65 so that nesting
beyond the protocol limit of 64 reports `NestingTooDeep` (§4.2). -/
def decodeMessage (s : List Nat) : Except DecErr Message :=
  match s with
  | m0 :: m1 :: m2 :: m3 :: rest =>
    match (if m0 = 108 then some Endian.little
           else if m0 = 66 then some Endian.big else none) with
    | none => .error .malformedHeader
    | some e =>
      exCase₂ (readBytes 4 rest) fun lenB s1 =>
        exCase₂ (readBytes 4 s1) fun serB s2 =>
          exCase₂ (readBytes 4 s2) fun flenB s3 =>
            if 134217728 < wordOfBytes e lenB then .error .messageTooLarge
            else
              exCase₃ (decodeFieldEntriesWith (decodeValueP 65) e
                  (wordOfBytes e flenB + 1) (16 + wordOfBytes e flenB) 16 s3)
                fun fields off4 s4 =>
                exCase₂ (skipPad 8 off4 s4) fun bodyStart s5 =>
                  exCase₃ (decodeBodyValsWith (decodeValueP 65) e
                      (declaredOf fields) bodyStart s5)
                    fun vals off6 s6 =>
                    if off6 = bodyStart + wordOfBytes e lenB then
                      .ok ⟨e, m1, m2, m3, wordOfBytes e serB, fields, vals⟩
                    else .error .signatureBodyMismatch
  | _ => .error .unexpectedEof

/-- Well-formedness of a message for the encode→decode round trip: the
fixed header quantities fit their wire fields, every header field
carries a well-formed value within the nesting limit (counting its
variant wrapper), the declared body signature equals the concatenated
signatures of the body values, every body value is well formed and
within the nesting limit, the field region fits its 32-bit length and
the body fits the 128 MiB cap. -/
def mwf (m : Message) : Prop :=
  m.msgType < 256 ∧ m.flags < 256 ∧ m.protoVer < 256 ∧
  m.serial < 4294967296 ∧
  (∀ p ∈ m.fields, p.1 < 256 ∧
    vwf (Value.variantV p.2) = true ∧ vdepth (Value.variantV p.2) < 65) ∧
  declaredOf m.fields = m.body.map sigOf ∧
  (∀ v ∈ m.body, vwf v = true ∧ vdepth v < 65) ∧
  (encodeFields m.endian 16 m.fields).length < 4294967296 ∧
  (encodeBody m.endian
    (alignUp (16 + (encodeFields m.endian 16 m.fields).length) 8)
    m.body).length ≤ 134217728


/-- Membership in a `ValueList`. -/
def vlMem (x : Value) : ValueList → Prop
  | .nil => False
  | .cons h t => x = h ∨ vlMem x t

/-- Number of values in a `ValueList`. -/
def vlCount : ValueList → Nat
  | .nil => 0
  | .cons _ t => 1 + vlCount t

/-! ## UTF-8 lemmas: validity, lossy decoding, and their round trip -/

theorem validUtf8F_zero (v : List Nat) : validUtf8F 0 v = false := rfl

theorem validUtf8F_nil (f : Nat) : validUtf8F (f + 1) [] = true := rfl

theorem validUtf8F_cons (f : Nat) (b : Nat) (rest : List Nat) :
    validUtf8F (f + 1) (b :: rest) =
      (if b < 0x80 then validUtf8F f rest
      else if 0xC2 ≤ b && b ≤ 0xDF then
        match rest with
        | c1 :: r1 => isCont c1 && validUtf8F f r1
        | [] => false
      else if 0xE0 ≤ b && b ≤ 0xEF then
        match rest with
        | c1 :: c2 :: r2 =>
          (e1lo b ≤ c1 && c1 ≤ e1hi b) && isCont c2 && validUtf8F f r2
        | _ => false
      else if 0xF0 ≤ b && b ≤ 0xF4 then
        match rest with
        | c1 :: c2 :: c3 :: r3 =>
          (f1lo b ≤ c1 && c1 ≤ f1hi b) && isCont c2 && isCont c3 && validUtf8F f r3
        | _ => false
      else false) := rfl

theorem decodeLossyF_zero (v : List Nat) : decodeLossyF 0 v = [] := rfl

theorem decodeLossyF_nil (f : Nat) : decodeLossyF (f + 1) [] = [] := rfl

theorem decodeLossyF_cons (f : Nat) (b : Nat) (rest : List Nat) :
    decodeLossyF (f + 1) (b :: rest) =
      (if b < 0x80 then b :: decodeLossyF f rest
      else if 0xC2 ≤ b && b ≤ 0xDF then
        match rest with
        | c1 :: r1 =>
          if isCont c1 then twoCp b c1 :: decodeLossyF f r1
          else 0xFFFD :: decodeLossyF f (c1 :: r1)
        | [] => [0xFFFD]
      else if 0xE0 ≤ b && b ≤ 0xEF then
        match rest with
        | c1 :: r1 =>
          if e1lo b ≤ c1 && c1 ≤ e1hi b then
            match r1 with
            | c2 :: r2 =>
              if isCont c2 then threeCp b c1 c2 :: decodeLossyF f r2
              else 0xFFFD :: decodeLossyF f (c2 :: r2)
            | [] => [0xFFFD]
          else 0xFFFD :: decodeLossyF f (c1 :: r1)
        | [] => [0xFFFD]
      else if 0xF0 ≤ b && b ≤ 0xF4 then
        match rest with
        | c1 :: r1 =>
          if f1lo b ≤ c1 && c1 ≤ f1hi b then
            match r1 with
            | c2 :: r2 =>
              if isCont c2 then
                match r2 with
                | c3 :: r3 =>
                  if isCont c3 then fourCp b c1 c2 c3 :: decodeLossyF f r3
                  else 0xFFFD :: decodeLossyF f (c3 :: r3)
                | [] => [0xFFFD]
              else 0xFFFD :: decodeLossyF f (c2 :: r2)
            | [] => [0xFFFD]
          else 0xFFFD :: decodeLossyF f (c1 :: r1)
        | [] => [0xFFFD]
      else 0xFFFD :: decodeLossyF f rest) := rfl

theorem validUtf8F_ascii {b : Nat} (f : Nat) (rest : List Nat) (h : b < 0x80) :
    validUtf8F (f + 1) (b :: rest) = validUtf8F f rest := by
  rw [validUtf8F_cons, if_pos h]

theorem validUtf8F_two_nil {b : Nat} (f : Nat) (h1 : ¬b < 0x80)
    (h2 : (0xC2 ≤ b && b ≤ 0xDF) = true) : validUtf8F (f + 1) [b] = false := by
  rw [validUtf8F_cons, if_neg h1, if_pos h2]

theorem validUtf8F_two_cons {b : Nat} (f : Nat) (c1 : Nat) (r1 : List Nat)
    (h1 : ¬b < 0x80) (h2 : (0xC2 ≤ b && b ≤ 0xDF) = true) :
    validUtf8F (f + 1) (b :: c1 :: r1) = (isCont c1 && validUtf8F f r1) := by
  rw [validUtf8F_cons, if_neg h1, if_pos h2]

theorem validUtf8F_three_nil {b : Nat} (f : Nat) (h1 : ¬b < 0x80)
    (h2 : ¬(0xC2 ≤ b && b ≤ 0xDF) = true) (h3 : (0xE0 ≤ b && b ≤ 0xEF) = true) :
    validUtf8F (f + 1) [b] = false := by
  rw [validUtf8F_cons, if_neg h1, if_neg h2, if_pos h3]

theorem validUtf8F_three_one {b : Nat} (f : Nat) (c1 : Nat) (h1 : ¬b < 0x80)
    (h2 : ¬(0xC2 ≤ b && b ≤ 0xDF) = true) (h3 : (0xE0 ≤ b && b ≤ 0xEF) = true) :
    validUtf8F (f + 1) [b, c1] = false := by
  rw [validUtf8F_cons, if_neg h1, if_neg h2, if_pos h3]

theorem validUtf8F_three_cons {b : Nat} (f : Nat) (c1 c2 : Nat) (r2 : List Nat)
    (h1 : ¬b < 0x80) (h2 : ¬(0xC2 ≤ b && b ≤ 0xDF) = true)
    (h3 : (0xE0 ≤ b && b ≤ 0xEF) = true) :
    validUtf8F (f + 1) (b :: c1 :: c2 :: r2) =
      ((e1lo b ≤ c1 && c1 ≤ e1hi b) && isCont c2 && validUtf8F f r2) := by
  rw [validUtf8F_cons, if_neg h1, if_neg h2, if_pos h3]

theorem validUtf8F_four_nil {b : Nat} (f : Nat) (h1 : ¬b < 0x80)
    (h2 : ¬(0xC2 ≤ b && b ≤ 0xDF) = true) (h3 : ¬(0xE0 ≤ b && b ≤ 0xEF) = true)
    (h4 : (0xF0 ≤ b && b ≤ 0xF4) = true) : validUtf8F (f + 1) [b] = false := by
  rw [validUtf8F_cons, if_neg h1, if_neg h2, if_neg h3, if_pos h4]

theorem validUtf8F_four_one {b : Nat} (f : Nat) (c1 : Nat) (h1 : ¬b < 0x80)
    (h2 : ¬(0xC2 ≤ b && b ≤ 0xDF) = true) (h3 : ¬(0xE0 ≤ b && b ≤ 0xEF) = true)
    (h4 : (0xF0 ≤ b && b ≤ 0xF4) = true) : validUtf8F (f + 1) [b, c1] = false := by
  rw [validUtf8F_cons, if_neg h1, if_neg h2, if_neg h3, if_pos h4]

theorem validUtf8F_four_two {b : Nat} (f : Nat) (c1 c2 : Nat) (h1 : ¬b < 0x80)
    (h2 : ¬(0xC2 ≤ b && b ≤ 0xDF) = true) (h3 : ¬(0xE0 ≤ b && b ≤ 0xEF) = true)
    (h4 : (0xF0 ≤ b && b ≤ 0xF4) = true) : validUtf8F (f + 1) [b, c1, c2] = false := by
  rw [validUtf8F_cons, if_neg h1, if_neg h2, if_neg h3, if_pos h4]

theorem validUtf8F_four_cons {b : Nat} (f : Nat) (c1 c2 c3 : Nat) (r3 : List Nat)
    (h1 : ¬b < 0x80) (h2 : ¬(0xC2 ≤ b && b ≤ 0xDF) = true)
    (h3 : ¬(0xE0 ≤ b && b ≤ 0xEF) = true) (h4 : (0xF0 ≤ b && b ≤ 0xF4) = true) :
    validUtf8F (f + 1) (b :: c1 :: c2 :: c3 :: r3) =
      ((f1lo b ≤ c1 && c1 ≤ f1hi b) && isCont c2 && isCont c3 && validUtf8F f r3) := by
  rw [validUtf8F_cons, if_neg h1, if_neg h2, if_neg h3, if_pos h4]

theorem validUtf8F_bad {b : Nat} (f : Nat) (rest : List Nat) (h1 : ¬b < 0x80)
    (h2 : ¬(0xC2 ≤ b && b ≤ 0xDF) = true) (h3 : ¬(0xE0 ≤ b && b ≤ 0xEF) = true)
    (h4 : ¬(0xF0 ≤ b && b ≤ 0xF4) = true) :
    validUtf8F (f + 1) (b :: rest) = false := by
  rw [validUtf8F_cons, if_neg h1, if_neg h2, if_neg h3, if_neg h4]

theorem validUtf8F_irrel : ∀ f1 : Nat, ∀ f2 : Nat, ∀ v : List Nat,
    v.length < f1 → v.length < f2 → validUtf8F f1 v = validUtf8F f2 v := by
  intro f1
  induction f1 with
  | zero => intro f2 v h1 h2; omega
  | succ f1 ih =>
    intro f2 v h1 h2
    match f2, v with
    | f2 + 1, [] => rfl
    | f2 + 1, b :: rest =>
      simp only [List.length_cons] at h1 h2
      by_cases hb : b < 0x80
      · rw [validUtf8F_ascii f1 rest hb, validUtf8F_ascii f2 rest hb]
        exact ih f2 rest (by omega) (by omega)
      · by_cases hc2 : (0xC2 ≤ b && b ≤ 0xDF) = true
        · match rest with
          | [] => rw [validUtf8F_two_nil f1 hb hc2, validUtf8F_two_nil f2 hb hc2]
          | c1 :: r1 =>
            rw [validUtf8F_two_cons f1 c1 r1 hb hc2, validUtf8F_two_cons f2 c1 r1 hb hc2]
            simp only [List.length_cons] at h1 h2
            rw [ih f2 r1 (by omega) (by omega)]
        · by_cases hc3 : (0xE0 ≤ b && b ≤ 0xEF) = true
          · match rest with
            | [] => rw [validUtf8F_three_nil f1 hb hc2 hc3, validUtf8F_three_nil f2 hb hc2 hc3]
            | [c1] => rw [validUtf8F_three_one f1 c1 hb hc2 hc3, validUtf8F_three_one f2 c1 hb hc2 hc3]
            | c1 :: c2 :: r2 =>
              rw [validUtf8F_three_cons f1 c1 c2 r2 hb hc2 hc3,
                validUtf8F_three_cons f2 c1 c2 r2 hb hc2 hc3]
              simp only [List.length_cons] at h1 h2
              rw [ih f2 r2 (by omega) (by omega)]
          · by_cases hc4 : (0xF0 ≤ b && b ≤ 0xF4) = true
            · match rest with
              | [] => rw [validUtf8F_four_nil f1 hb hc2 hc3 hc4, validUtf8F_four_nil f2 hb hc2 hc3 hc4]
              | [c1] => rw [validUtf8F_four_one f1 c1 hb hc2 hc3 hc4, validUtf8F_four_one f2 c1 hb hc2 hc3 hc4]
              | [c1, c2] => rw [validUtf8F_four_two f1 c1 c2 hb hc2 hc3 hc4, validUtf8F_four_two f2 c1 c2 hb hc2 hc3 hc4]
              | c1 :: c2 :: c3 :: r3 =>
                rw [validUtf8F_four_cons f1 c1 c2 c3 r3 hb hc2 hc3 hc4,
                  validUtf8F_four_cons f2 c1 c2 c3 r3 hb hc2 hc3 hc4]
                simp only [List.length_cons] at h1 h2
                rw [ih f2 r3 (by omega) (by omega)]
            · rw [validUtf8F_bad f1 rest hb hc2 hc3 hc4, validUtf8F_bad f2 rest hb hc2 hc3 hc4]

theorem decodeLossyF_ascii {b : Nat} (f : Nat) (rest : List Nat) (h : b < 0x80) :
    decodeLossyF (f + 1) (b :: rest) = b :: decodeLossyF f rest := by
  rw [decodeLossyF_cons, if_pos h]

theorem decodeLossyF_two_nil {b : Nat} (f : Nat) (h1 : ¬b < 0x80)
    (h2 : (0xC2 ≤ b && b ≤ 0xDF) = true) : decodeLossyF (f + 1) [b] = [0xFFFD] := by
  rw [decodeLossyF_cons, if_neg h1, if_pos h2]

theorem decodeLossyF_two_cons {b : Nat} (f : Nat) (c1 : Nat) (r1 : List Nat)
    (h1 : ¬b < 0x80) (h2 : (0xC2 ≤ b && b ≤ 0xDF) = true) :
    decodeLossyF (f + 1) (b :: c1 :: r1) =
      (if isCont c1 then twoCp b c1 :: decodeLossyF f r1
      else 0xFFFD :: decodeLossyF f (c1 :: r1)) := by
  rw [decodeLossyF_cons, if_neg h1, if_pos h2]

theorem decodeLossyF_three_nil {b : Nat} (f : Nat) (h1 : ¬b < 0x80)
    (h2 : ¬(0xC2 ≤ b && b ≤ 0xDF) = true) (h3 : (0xE0 ≤ b && b ≤ 0xEF) = true) :
    decodeLossyF (f + 1) [b] = [0xFFFD] := by
  rw [decodeLossyF_cons, if_neg h1, if_neg h2, if_pos h3]

theorem decodeLossyF_three_one {b : Nat} (f : Nat) (c1 : Nat) (h1 : ¬b < 0x80)
    (h2 : ¬(0xC2 ≤ b && b ≤ 0xDF) = true) (h3 : (0xE0 ≤ b && b ≤ 0xEF) = true) :
    decodeLossyF (f + 1) [b, c1] =
      (if e1lo b ≤ c1 && c1 ≤ e1hi b then [0xFFFD]
      else 0xFFFD :: decodeLossyF f [c1]) := by
  rw [decodeLossyF_cons, if_neg h1, if_neg h2, if_pos h3]

theorem decodeLossyF_three_cons {b : Nat} (f : Nat) (c1 c2 : Nat) (r2 : List Nat)
    (h1 : ¬b < 0x80) (h2 : ¬(0xC2 ≤ b && b ≤ 0xDF) = true)
    (h3 : (0xE0 ≤ b && b ≤ 0xEF) = true) :
    decodeLossyF (f + 1) (b :: c1 :: c2 :: r2) =
      (if e1lo b ≤ c1 && c1 ≤ e1hi b then
        (if isCont c2 then threeCp b c1 c2 :: decodeLossyF f r2
        else 0xFFFD :: decodeLossyF f (c2 :: r2))
      else 0xFFFD :: decodeLossyF f (c1 :: c2 :: r2)) := by
  rw [decodeLossyF_cons, if_neg h1, if_neg h2, if_pos h3]

theorem decodeLossyF_four_nil {b : Nat} (f : Nat) (h1 : ¬b < 0x80)
    (h2 : ¬(0xC2 ≤ b && b ≤ 0xDF) = true) (h3 : ¬(0xE0 ≤ b && b ≤ 0xEF) = true)
    (h4 : (0xF0 ≤ b && b ≤ 0xF4) = true) : decodeLossyF (f + 1) [b] = [0xFFFD] := by
  rw [decodeLossyF_cons, if_neg h1, if_neg h2, if_neg h3, if_pos h4]

theorem decodeLossyF_four_one {b : Nat} (f : Nat) (c1 : Nat) (h1 : ¬b < 0x80)
    (h2 : ¬(0xC2 ≤ b && b ≤ 0xDF) = true) (h3 : ¬(0xE0 ≤ b && b ≤ 0xEF) = true)
    (h4 : (0xF0 ≤ b && b ≤ 0xF4) = true) :
    decodeLossyF (f + 1) [b, c1] =
      (if f1lo b ≤ c1 && c1 ≤ f1hi b then [0xFFFD]
      else 0xFFFD :: decodeLossyF f [c1]) := by
  rw [decodeLossyF_cons, if_neg h1, if_neg h2, if_neg h3, if_pos h4]

theorem decodeLossyF_four_two {b : Nat} (f : Nat) (c1 c2 : Nat) (h1 : ¬b < 0x80)
    (h2 : ¬(0xC2 ≤ b && b ≤ 0xDF) = true) (h3 : ¬(0xE0 ≤ b && b ≤ 0xEF) = true)
    (h4 : (0xF0 ≤ b && b ≤ 0xF4) = true) :
    decodeLossyF (f + 1) [b, c1, c2] =
      (if f1lo b ≤ c1 && c1 ≤ f1hi b then
        (if isCont c2 then [0xFFFD]
        else 0xFFFD :: decodeLossyF f [c2])
      else 0xFFFD :: decodeLossyF f [c1, c2]) := by
  rw [decodeLossyF_cons, if_neg h1, if_neg h2, if_neg h3, if_pos h4]

theorem decodeLossyF_four_cons {b : Nat} (f : Nat) (c1 c2 c3 : Nat) (r3 : List Nat)
    (h1 : ¬b < 0x80) (h2 : ¬(0xC2 ≤ b && b ≤ 0xDF) = true)
    (h3 : ¬(0xE0 ≤ b && b ≤ 0xEF) = true) (h4 : (0xF0 ≤ b && b ≤ 0xF4) = true) :
    decodeLossyF (f + 1) (b :: c1 :: c2 :: c3 :: r3) =
      (if f1lo b ≤ c1 && c1 ≤ f1hi b then
        (if isCont c2 then
          (if isCont c3 then fourCp b c1 c2 c3 :: decodeLossyF f r3
          else 0xFFFD :: decodeLossyF f (c3 :: r3))
        else 0xFFFD :: decodeLossyF f (c2 :: c3 :: r3))
      else 0xFFFD :: decodeLossyF f (c1 :: c2 :: c3 :: r3)) := by
  rw [decodeLossyF_cons, if_neg h1, if_neg h2, if_neg h3, if_pos h4]

theorem decodeLossyF_bad {b : Nat} (f : Nat) (rest : List Nat) (h1 : ¬b < 0x80)
    (h2 : ¬(0xC2 ≤ b && b ≤ 0xDF) = true) (h3 : ¬(0xE0 ≤ b && b ≤ 0xEF) = true)
    (h4 : ¬(0xF0 ≤ b && b ≤ 0xF4) = true) :
    decodeLossyF (f + 1) (b :: rest) = 0xFFFD :: decodeLossyF f rest := by
  rw [decodeLossyF_cons, if_neg h1, if_neg h2, if_neg h3, if_neg h4]

theorem encodeCp_ascii {c : Nat} (h : c < 0x80) : encodeCp c = [c] := by
  simp [encodeCp, if_pos h]

theorem encodeCp_two {b c1 : Nat} (hb1 : 0xC2 ≤ b) (hb2 : b ≤ 0xDF)
    (hc : isCont c1 = true) : encodeCp (twoCp b c1) = [b, c1] := by
  simp only [isCont, Bool.and_eq_true, decide_eq_true_eq] at hc
  simp only [encodeCp, twoCp]
  rw [if_neg (by omega), if_pos (by omega)]
  simp only [List.cons.injEq, and_true]
  exact ⟨by omega, by omega⟩

theorem encodeCp_three {b c1 c2 : Nat} (hb1 : 0xE0 ≤ b) (hb2 : b ≤ 0xEF)
    (hlo : e1lo b ≤ c1) (hhi : c1 ≤ e1hi b) (hc2 : isCont c2 = true) :
    encodeCp (threeCp b c1 c2) = [b, c1, c2] := by
  simp only [isCont, Bool.and_eq_true, decide_eq_true_eq] at hc2
  have h80 : 0x80 ≤ c1 := by simp only [e1lo] at hlo; split_ifs at hlo <;> omega
  have hbf : c1 ≤ 0xBF := by simp only [e1hi] at hhi; split_ifs at hhi <;> omega
  have hcase : 0xA0 ≤ c1 ∨ 0xE1 ≤ b := by
    by_cases hE : b = 0xE0
    · left; rw [hE] at hlo; simpa [e1lo] using hlo
    · right; omega
  simp only [encodeCp, threeCp]
  rw [if_neg (by omega), if_neg (by omega), if_pos (by omega)]
  simp only [List.cons.injEq, and_true]
  exact ⟨by omega, by omega, by omega⟩

theorem encodeCp_four {b c1 c2 c3 : Nat} (hb1 : 0xF0 ≤ b) (hb2 : b ≤ 0xF4)
    (hlo : f1lo b ≤ c1) (hhi : c1 ≤ f1hi b) (hc2 : isCont c2 = true)
    (hc3 : isCont c3 = true) : encodeCp (fourCp b c1 c2 c3) = [b, c1, c2, c3] := by
  simp only [isCont, Bool.and_eq_true, decide_eq_true_eq] at hc2 hc3
  have h80 : 0x80 ≤ c1 := by simp only [f1lo] at hlo; split_ifs at hlo <;> omega
  have hbf : c1 ≤ 0xBF := by simp only [f1hi] at hhi; split_ifs at hhi <;> omega
  have hcase : 0x90 ≤ c1 ∨ 0xF1 ≤ b := by
    by_cases hF : b = 0xF0
    · left; rw [hF] at hlo; simpa [f1lo] using hlo
    · right; omega
  simp only [encodeCp, fourCp]
  rw [if_neg (by omega), if_neg (by omega), if_neg (by omega)]
  simp only [List.cons.injEq, and_true]
  exact ⟨by omega, by omega, by omega, by omega⟩

theorem isScalar_twoCp {b c1 : Nat} (h2 : (0xC2 ≤ b && b ≤ 0xDF) = true)
    (hc : isCont c1 = true) : isScalar (twoCp b c1) = true := by
  simp only [Bool.and_eq_true, decide_eq_true_eq] at h2
  simp only [isCont, Bool.and_eq_true, decide_eq_true_eq] at hc
  simp only [isScalar, twoCp, Bool.and_eq_true, decide_eq_true_eq, Bool.not_eq_true',
    Bool.and_eq_false_iff, decide_eq_false_iff_not, not_le]
  omega

theorem isScalar_threeCp {b c1 c2 : Nat} (h3 : (0xE0 ≤ b && b ≤ 0xEF) = true)
    (hr : (e1lo b ≤ c1 && c1 ≤ e1hi b) = true) (hc : isCont c2 = true) :
    isScalar (threeCp b c1 c2) = true := by
  simp only [Bool.and_eq_true, decide_eq_true_eq] at h3 hr
  obtain ⟨hlo, hhi⟩ := hr
  simp only [isCont, Bool.and_eq_true, decide_eq_true_eq] at hc
  have h80 : 0x80 ≤ c1 := by simp only [e1lo] at hlo; split_ifs at hlo <;> omega
  have hbf : c1 ≤ 0xBF := by simp only [e1hi] at hhi; split_ifs at hhi <;> omega
  have hED : b ≠ 0xED ∨ c1 ≤ 0x9F := by
    by_cases hE : b = 0xED
    · right; rw [hE] at hhi; simpa [e1hi] using hhi
    · left; exact hE
  simp only [isScalar, threeCp, Bool.and_eq_true, decide_eq_true_eq, Bool.not_eq_true',
    Bool.and_eq_false_iff, decide_eq_false_iff_not, not_le]
  omega

theorem isScalar_fourCp {b c1 c2 c3 : Nat} (h4 : (0xF0 ≤ b && b ≤ 0xF4) = true)
    (hr : (f1lo b ≤ c1 && c1 ≤ f1hi b) = true) (hc2 : isCont c2 = true)
    (hc3 : isCont c3 = true) : isScalar (fourCp b c1 c2 c3) = true := by
  simp only [Bool.and_eq_true, decide_eq_true_eq] at h4 hr
  obtain ⟨hlo, hhi⟩ := hr
  simp only [isCont, Bool.and_eq_true, decide_eq_true_eq] at hc2 hc3
  have h80 : 0x80 ≤ c1 := by simp only [f1lo] at hlo; split_ifs at hlo <;> omega
  have hbf : c1 ≤ 0xBF := by simp only [f1hi] at hhi; split_ifs at hhi <;> omega
  have hF4 : b ≠ 0xF4 ∨ c1 ≤ 0x8F := by
    by_cases hE : b = 0xF4
    · right; rw [hE] at hhi; simpa [f1hi] using hhi
    · left; exact hE
  have hF0 : b ≠ 0xF0 ∨ 0x90 ≤ c1 := by
    by_cases hE : b = 0xF0
    · right; rw [hE] at hlo; simpa [f1lo] using hlo
    · left; exact hE
  simp only [isScalar, fourCp, Bool.and_eq_true, decide_eq_true_eq, Bool.not_eq_true',
    Bool.and_eq_false_iff, decide_eq_false_iff_not, not_le]
  omega

theorem isScalar_fffd : isScalar 0xFFFD = true := by decide

set_option maxRecDepth 10000 in
theorem decodeLossyF_scalar : ∀ f v, ∀ c ∈ decodeLossyF f v, isScalar c = true := by
  intro f
  induction f with
  | zero => intro v c hc; rw [decodeLossyF_zero] at hc; simp at hc
  | succ f ih =>
    intro v c hc
    match v with
    | [] => rw [decodeLossyF_nil] at hc; simp at hc
    | b :: rest =>
      by_cases hb : b < 0x80
      · rw [decodeLossyF_ascii f rest hb] at hc
        rcases List.mem_cons.mp hc with rfl | hc
        · simp only [isScalar, Bool.and_eq_true, decide_eq_true_eq, Bool.not_eq_true',
            Bool.and_eq_false_iff, decide_eq_false_iff_not, not_le]
          omega
        · exact ih rest c hc
      · by_cases hc2 : (0xC2 ≤ b && b ≤ 0xDF) = true
        · match rest with
          | [] =>
            rw [decodeLossyF_two_nil f hb hc2] at hc
            rcases List.mem_cons.mp hc with rfl | hc
            · exact isScalar_fffd
            · simp at hc
          | c1 :: r1 =>
            rw [decodeLossyF_two_cons f c1 r1 hb hc2] at hc
            by_cases hcont : isCont c1 = true
            · rw [if_pos hcont] at hc
              rcases List.mem_cons.mp hc with rfl | hc
              · exact isScalar_twoCp hc2 hcont
              · exact ih r1 c hc
            · rw [if_neg hcont] at hc
              rcases List.mem_cons.mp hc with rfl | hc
              · exact isScalar_fffd
              · exact ih (c1 :: r1) c hc
        · by_cases hc3 : (0xE0 ≤ b && b ≤ 0xEF) = true
          · match rest with
            | [] =>
              rw [decodeLossyF_three_nil f hb hc2 hc3] at hc
              rcases List.mem_cons.mp hc with rfl | hc
              · exact isScalar_fffd
              · simp at hc
            | [c1] =>
              rw [decodeLossyF_three_one f c1 hb hc2 hc3] at hc
              by_cases hr : (e1lo b ≤ c1 && c1 ≤ e1hi b) = true
              · rw [if_pos hr] at hc
                rcases List.mem_cons.mp hc with rfl | hc
                · exact isScalar_fffd
                · simp at hc
              · rw [if_neg hr] at hc
                rcases List.mem_cons.mp hc with rfl | hc
                · exact isScalar_fffd
                · exact ih [c1] c hc
            | c1 :: c2 :: r2 =>
              rw [decodeLossyF_three_cons f c1 c2 r2 hb hc2 hc3] at hc
              by_cases hr : (e1lo b ≤ c1 && c1 ≤ e1hi b) = true
              · rw [if_pos hr] at hc
                by_cases hcont : isCont c2 = true
                · rw [if_pos hcont] at hc
                  rcases List.mem_cons.mp hc with rfl | hc
                  · exact isScalar_threeCp hc3 hr hcont
                  · exact ih r2 c hc
                · rw [if_neg hcont] at hc
                  rcases List.mem_cons.mp hc with rfl | hc
                  · exact isScalar_fffd
                  · exact ih (c2 :: r2) c hc
              · rw [if_neg hr] at hc
                rcases List.mem_cons.mp hc with rfl | hc
                · exact isScalar_fffd
                · exact ih (c1 :: c2 :: r2) c hc
          · by_cases hc4 : (0xF0 ≤ b && b ≤ 0xF4) = true
            · match rest with
              | [] =>
                rw [decodeLossyF_four_nil f hb hc2 hc3 hc4] at hc
                rcases List.mem_cons.mp hc with rfl | hc
                · exact isScalar_fffd
                · simp at hc
              | [c1] =>
                rw [decodeLossyF_four_one f c1 hb hc2 hc3 hc4] at hc
                by_cases hr : (f1lo b ≤ c1 && c1 ≤ f1hi b) = true
                · rw [if_pos hr] at hc
                  rcases List.mem_cons.mp hc with rfl | hc
                  · exact isScalar_fffd
                  · simp at hc
                · rw [if_neg hr] at hc
                  rcases List.mem_cons.mp hc with rfl | hc
                  · exact isScalar_fffd
                  · exact ih [c1] c hc
              | [c1, c2] =>
                rw [decodeLossyF_four_two f c1 c2 hb hc2 hc3 hc4] at hc
                by_cases hr : (f1lo b ≤ c1 && c1 ≤ f1hi b) = true
                · rw [if_pos hr] at hc
                  by_cases hcont : isCont c2 = true
                  · rw [if_pos hcont] at hc
                    rcases List.mem_cons.mp hc with rfl | hc
                    · exact isScalar_fffd
                    · simp at hc
                  · rw [if_neg hcont] at hc
                    rcases List.mem_cons.mp hc with rfl | hc
                    · exact isScalar_fffd
                    · exact ih [c2] c hc
                · rw [if_neg hr] at hc
                  rcases List.mem_cons.mp hc with rfl | hc
                  · exact isScalar_fffd
                  · exact ih [c1, c2] c hc
              | c1 :: c2 :: c3 :: r3 =>
                rw [decodeLossyF_four_cons f c1 c2 c3 r3 hb hc2 hc3 hc4] at hc
                by_cases hr : (f1lo b ≤ c1 && c1 ≤ f1hi b) = true
                · rw [if_pos hr] at hc
                  by_cases hco2 : isCont c2 = true
                  · rw [if_pos hco2] at hc
                    by_cases hco3 : isCont c3 = true
                    · rw [if_pos hco3] at hc
                      rcases List.mem_cons.mp hc with rfl | hc
                      · exact isScalar_fourCp hc4 hr hco2 hco3
                      · exact ih r3 c hc
                    · rw [if_neg hco3] at hc
                      rcases List.mem_cons.mp hc with rfl | hc
                      · exact isScalar_fffd
                      · exact ih (c3 :: r3) c hc
                  · rw [if_neg hco2] at hc
                    rcases List.mem_cons.mp hc with rfl | hc
                    · exact isScalar_fffd
                    · exact ih (c2 :: c3 :: r3) c hc
                · rw [if_neg hr] at hc
                  rcases List.mem_cons.mp hc with rfl | hc
                  · exact isScalar_fffd
                  · exact ih (c1 :: c2 :: c3 :: r3) c hc
            · rw [decodeLossyF_bad f rest hb hc2 hc3 hc4] at hc
              rcases List.mem_cons.mp hc with rfl | hc
              · exact isScalar_fffd
              · exact ih rest c hc

theorem encodeUtf8_nil : encodeUtf8 [] = [] := rfl

theorem encodeUtf8_cons (c : Nat) (l : List Nat) :
    encodeUtf8 (c :: l) = encodeCp c ++ encodeUtf8 l := rfl

theorem encodeCp_two_eq {c : Nat} (h1 : ¬c < 0x80) (h2 : c < 0x800) :
    encodeCp c = [0xC0 + c / 64, 0x80 + c % 64] := by
  simp [encodeCp, if_neg h1, if_pos h2]

theorem encodeCp_three_eq {c : Nat} (h1 : ¬c < 0x80) (h2 : ¬c < 0x800) (h3 : c < 0x10000) :
    encodeCp c = [0xE0 + c / 4096, 0x80 + c / 64 % 64, 0x80 + c % 64] := by
  simp [encodeCp, if_neg h1, if_neg h2, if_pos h3]

theorem encodeCp_four_eq {c : Nat} (h1 : ¬c < 0x80) (h2 : ¬c < 0x800) (h3 : ¬c < 0x10000) :
    encodeCp c = [0xF0 + c / 262144, 0x80 + c / 4096 % 64, 0x80 + c / 64 % 64, 0x80 + c % 64] := by
  simp [encodeCp, if_neg h1, if_neg h2, if_neg h3]

theorem validUtf8F_roundtrip : ∀ f v, validUtf8F f v = true →
    encodeUtf8 (decodeLossyF f v) = v := by
  intro f
  induction f with
  | zero => intro v h; rw [validUtf8F_zero] at h; exact Bool.noConfusion h
  | succ f ih =>
    intro v h
    match v with
    | [] => rw [decodeLossyF_nil]; rfl
    | b :: rest =>
      by_cases hb : b < 0x80
      · rw [validUtf8F_ascii f rest hb] at h
        rw [decodeLossyF_ascii f rest hb, encodeUtf8_cons, encodeCp_ascii hb,
          ih rest h, List.singleton_append]
      · by_cases hc2 : (0xC2 ≤ b && b ≤ 0xDF) = true
        · match rest with
          | [] =>
            rw [validUtf8F_two_nil f hb hc2] at h
            exact Bool.noConfusion h
          | c1 :: r1 =>
            rw [validUtf8F_two_cons f c1 r1 hb hc2] at h
            simp only [Bool.and_eq_true] at h
            obtain ⟨hcont, hval⟩ := h
            rw [decodeLossyF_two_cons f c1 r1 hb hc2, if_pos hcont, encodeUtf8_cons]
            have hb2 := hc2
            simp only [Bool.and_eq_true, decide_eq_true_eq] at hb2
            rw [encodeCp_two hb2.1 hb2.2 hcont, ih r1 hval]
            rfl
        · by_cases hc3 : (0xE0 ≤ b && b ≤ 0xEF) = true
          · match rest with
            | [] =>
              rw [validUtf8F_three_nil f hb hc2 hc3] at h
              exact Bool.noConfusion h
            | [c1] =>
              rw [validUtf8F_three_one f c1 hb hc2 hc3] at h
              exact Bool.noConfusion h
            | c1 :: c2 :: r2 =>
              rw [validUtf8F_three_cons f c1 c2 r2 hb hc2 hc3] at h
              simp only [Bool.and_eq_true] at h
              obtain ⟨⟨⟨hr1, hr2⟩, hcont⟩, hval⟩ := h
              have hr : (e1lo b ≤ c1 && c1 ≤ e1hi b) = true := by
                simp only [Bool.and_eq_true]
                exact ⟨hr1, hr2⟩
              rw [decodeLossyF_three_cons f c1 c2 r2 hb hc2 hc3, if_pos hr, if_pos hcont,
                encodeUtf8_cons]
              have hb3 := hc3
              simp only [Bool.and_eq_true, decide_eq_true_eq] at hb3
              rw [encodeCp_three hb3.1 hb3.2 (of_decide_eq_true hr1)
                (of_decide_eq_true hr2) hcont, ih r2 hval]
              rfl
          · by_cases hc4 : (0xF0 ≤ b && b ≤ 0xF4) = true
            · match rest with
              | [] =>
                rw [validUtf8F_four_nil f hb hc2 hc3 hc4] at h
                exact Bool.noConfusion h
              | [c1] =>
                rw [validUtf8F_four_one f c1 hb hc2 hc3 hc4] at h
                exact Bool.noConfusion h
              | [c1, c2] =>
                rw [validUtf8F_four_two f c1 c2 hb hc2 hc3 hc4] at h
                exact Bool.noConfusion h
              | c1 :: c2 :: c3 :: r3 =>
                rw [validUtf8F_four_cons f c1 c2 c3 r3 hb hc2 hc3 hc4] at h
                simp only [Bool.and_eq_true] at h
                obtain ⟨⟨⟨⟨hr1, hr2⟩, hco2⟩, hco3⟩, hval⟩ := h
                have hr : (f1lo b ≤ c1 && c1 ≤ f1hi b) = true := by
                  simp only [Bool.and_eq_true]
                  exact ⟨hr1, hr2⟩
                rw [decodeLossyF_four_cons f c1 c2 c3 r3 hb hc2 hc3 hc4, if_pos hr,
                  if_pos hco2, if_pos hco3, encodeUtf8_cons]
                have hb4 := hc4
                simp only [Bool.and_eq_true, decide_eq_true_eq] at hb4
                rw [encodeCp_four hb4.1 hb4.2 (of_decide_eq_true hr1)
                  (of_decide_eq_true hr2) hco2 hco3, ih r3 hval]
                rfl
            · rw [validUtf8F_bad f rest hb hc2 hc3 hc4] at h
              exact Bool.noConfusion h

theorem valid_decodeLossy_roundtrip (v : List Nat) (h : validUtf8 v = true) :
    encodeUtf8 (decodeLossy v) = v :=
  validUtf8F_roundtrip (v.length + 1) v h

theorem validUtf8_encodeCp_append {c : Nat} (h : isScalar c = true) (rest : List Nat) :
    validUtf8 (encodeCp c ++ rest) = validUtf8 rest := by
  simp only [isScalar, Bool.and_eq_true, Bool.not_eq_true', Bool.and_eq_false_iff,
    decide_eq_true_eq, decide_eq_false_iff_not, not_le] at h
  obtain ⟨hmax, hsur⟩ := h
  by_cases h1 : c < 0x80
  · rw [encodeCp_ascii h1]
    simp only [validUtf8, List.cons_append, List.nil_append, List.length_cons]
    rw [validUtf8F_ascii (rest.length + 1) rest h1]
  · by_cases h2 : c < 0x800
    · rw [encodeCp_two_eq h1 h2]
      simp only [validUtf8, List.cons_append, List.nil_append, List.length_cons,
        List.length_append]
      rw [validUtf8F_two_cons (rest.length + 1 + 1) _ rest (by omega)
        (by simp only [Bool.and_eq_true, decide_eq_true_eq]; omega)]
      rw [show isCont (0x80 + c % 64) = true by
        simp only [isCont, Bool.and_eq_true, decide_eq_true_eq]; omega]
      rw [Bool.true_and]
      exact validUtf8F_irrel (rest.length + 1 + 1) (rest.length + 1) rest
        (by omega) (by omega)
    · by_cases h3 : c < 0x10000
      · rw [encodeCp_three_eq h1 h2 h3]
        simp only [validUtf8, List.cons_append, List.nil_append, List.length_cons,
          List.length_append]
        rw [validUtf8F_three_cons (rest.length + 1 + 1 + 1) _ _ rest (by omega)
          (by simp only [Bool.and_eq_true, decide_eq_true_eq]; omega)
          (by simp only [Bool.and_eq_true, decide_eq_true_eq]; omega)]
        rw [show (e1lo (0xE0 + c / 4096) ≤ 0x80 + c / 64 % 64 &&
            (0x80 + c / 64 % 64 ≤ e1hi (0xE0 + c / 4096) : Bool)) = true by
          simp only [e1lo, e1hi, Bool.and_eq_true, decide_eq_true_eq]
          split_ifs <;> omega]
        rw [show isCont (0x80 + c % 64) = true by
          simp only [isCont, Bool.and_eq_true, decide_eq_true_eq]; omega]
        rw [Bool.true_and, Bool.true_and]
        exact validUtf8F_irrel (rest.length + 1 + 1 + 1) (rest.length + 1) rest
          (by omega) (by omega)
      · rw [encodeCp_four_eq h1 h2 h3]
        simp only [validUtf8, List.cons_append, List.nil_append, List.length_cons,
          List.length_append]
        rw [validUtf8F_four_cons (rest.length + 1 + 1 + 1 + 1) _ _ _ rest (by omega)
          (by simp only [Bool.and_eq_true, decide_eq_true_eq]; omega)
          (by simp only [Bool.and_eq_true, decide_eq_true_eq]; omega)
          (by simp only [Bool.and_eq_true, decide_eq_true_eq]; omega)]
        rw [show (f1lo (0xF0 + c / 262144) ≤ 0x80 + c / 4096 % 64 &&
            (0x80 + c / 4096 % 64 ≤ f1hi (0xF0 + c / 262144) : Bool)) = true by
          simp only [f1lo, f1hi, Bool.and_eq_true, decide_eq_true_eq]
          split_ifs <;> omega]
        rw [show isCont (0x80 + c / 64 % 64) = true by
          simp only [isCont, Bool.and_eq_true, decide_eq_true_eq]; omega]
        rw [show isCont (0x80 + c % 64) = true by
          simp only [isCont, Bool.and_eq_true, decide_eq_true_eq]; omega]
        rw [Bool.true_and, Bool.true_and, Bool.true_and]
        exact validUtf8F_irrel (rest.length + 1 + 1 + 1 + 1) (rest.length + 1) rest
          (by omega) (by omega)

theorem validUtf8_encodeUtf8 (cps : List Nat) (h : ∀ c ∈ cps, isScalar c = true) :
    validUtf8 (encodeUtf8 cps) = true := by
  induction cps with
  | nil => rfl
  | cons c l ih =>
    rw [encodeUtf8_cons, validUtf8_encodeCp_append (h c (by simp))]
    exact ih (fun x hx => h x (by simp [hx]))

theorem decodeLossy_encode_valid (v : List Nat) :
    validUtf8 (encodeUtf8 (decodeLossy v)) = true :=
  validUtf8_encodeUtf8 _ (decodeLossyF_scalar (v.length + 1) v)

theorem lossy_roundtrip_iff (v : List Nat) :
    encodeUtf8 (decodeLossy v) = v ↔ validUtf8 v = true :=
  ⟨fun h => h ▸ decodeLossy_encode_valid v, valid_decodeLossy_roundtrip v⟩

/-! ## Signature parser/printer round-trip lemmas -/

theorem basicOfChar_basicChar (b : BasicType) : basicOfChar (basicChar b) = some b := by
  cases b <;> rfl

theorem basicChar_of_basicOfChar {c : Char} {b : BasicType} (h : basicOfChar c = some b) :
    basicChar b = c := by
  simp only [basicOfChar] at h
  by_cases h1 : c = 'y'
  · rw [if_pos h1] at h
    injection h with hb
    subst hb
    exact h1.symm
  rw [if_neg h1] at h
  by_cases h2 : c = 'b'
  · rw [if_pos h2] at h
    injection h with hb
    subst hb
    exact h2.symm
  rw [if_neg h2] at h
  by_cases h3 : c = 'n'
  · rw [if_pos h3] at h
    injection h with hb
    subst hb
    exact h3.symm
  rw [if_neg h3] at h
  by_cases h4 : c = 'q'
  · rw [if_pos h4] at h
    injection h with hb
    subst hb
    exact h4.symm
  rw [if_neg h4] at h
  by_cases h5 : c = 'i'
  · rw [if_pos h5] at h
    injection h with hb
    subst hb
    exact h5.symm
  rw [if_neg h5] at h
  by_cases h6 : c = 'u'
  · rw [if_pos h6] at h
    injection h with hb
    subst hb
    exact h6.symm
  rw [if_neg h6] at h
  by_cases h7 : c = 'x'
  · rw [if_pos h7] at h
    injection h with hb
    subst hb
    exact h7.symm
  rw [if_neg h7] at h
  by_cases h8 : c = 't'
  · rw [if_pos h8] at h
    injection h with hb
    subst hb
    exact h8.symm
  rw [if_neg h8] at h
  by_cases h9 : c = 'd'
  · rw [if_pos h9] at h
    injection h with hb
    subst hb
    exact h9.symm
  rw [if_neg h9] at h
  by_cases h10 : c = 's'
  · rw [if_pos h10] at h
    injection h with hb
    subst hb
    exact h10.symm
  rw [if_neg h10] at h
  by_cases h11 : c = 'o'
  · rw [if_pos h11] at h
    injection h with hb
    subst hb
    exact h11.symm
  rw [if_neg h11] at h
  by_cases h12 : c = 'g'
  · rw [if_pos h12] at h
    injection h with hb
    subst hb
    exact h12.symm
  rw [if_neg h12] at h
  exact Option.noConfusion h

theorem parse_print (f : Nat) :
    (∀ cs t rest, parseOneF f cs = .ok (t, rest) → sigTypeChars t ++ rest = cs) ∧
    (∀ cs fs rest, parseFieldsF f cs = .ok (fs, rest) → sigListChars fs ++ ')' :: rest = cs) := by
  induction f with
  | zero =>
    constructor
    · intro cs t rest h; rw [parseOneF_zero] at h; exact Except.noConfusion h
    · intro cs fs rest h; rw [parseFieldsF_zero] at h; exact Except.noConfusion h
  | succ f ih =>
    obtain ⟨ih1, ih2⟩ := ih
    constructor
    · intro cs t rest h
      cases cs with
      | nil => rw [parseOneF_nil] at h; exact Except.noConfusion h
      | cons c cs =>
        by_cases ha : c = 'a'
        · subst ha
          rw [parseOneF_a] at h
          obtain ⟨t1, r, heq, h2⟩ := exCase₂_eq_ok h
          simp only [Except.ok.injEq, Prod.mk.injEq] at h2
          obtain ⟨ht, hr⟩ := h2
          subst ht; subst hr
          simp [sigTypeChars, ih1 cs t1 r heq]
        · by_cases hv : c = 'v'
          · subst hv
            rw [parseOneF_v] at h
            simp only [Except.ok.injEq, Prod.mk.injEq] at h
            obtain ⟨ht, hr⟩ := h
            subst ht; subst hr
            simp [sigTypeChars]
          · by_cases hp : c = '('
            · subst hp
              rw [parseOneF_paren] at h
              obtain ⟨fs, r, heq, h2⟩ := exCase₂_eq_ok h
              simp only [Except.ok.injEq, Prod.mk.injEq] at h2
              obtain ⟨ht, hr⟩ := h2
              subst ht; subst hr
              simp [sigTypeChars, List.append_assoc, ih2 cs fs r heq]
            · by_cases hb : c = '{'
              · subst hb
                cases cs with
                | nil => rw [parseOneF_brace_nil] at h; exact Except.noConfusion h
                | cons k cs' =>
                  rw [parseOneF_brace] at h
                  cases hk : basicOfChar k with
                  | none => rw [hk, optCase_none] at h; exact Except.noConfusion h
                  | some kb =>
                    rw [hk, optCase_some] at h
                    obtain ⟨v1, r1, heq, h2⟩ := exCase₂_eq_ok h
                    by_cases hh : r1.head? = some '}'
                    · rw [if_pos hh] at h2
                      simp only [Except.ok.injEq, Prod.mk.injEq] at h2
                      obtain ⟨ht, hr⟩ := h2
                      subst ht; subst hr
                      cases r1 with
                      | nil => simp at hh
                      | cons a as =>
                        simp only [List.head?_cons, Option.some.injEq] at hh
                        subst hh
                        have := ih1 cs' v1 ('}' :: as) heq
                        simp [sigTypeChars, basicChar_of_basicOfChar hk,
                          List.append_assoc, this]
                    · rw [if_neg hh] at h2; exact Except.noConfusion h2
              · rw [parseOneF_default f c cs ha hv hp hb] at h
                cases hb2 : basicOfChar c with
                | none => rw [hb2, optCase_none] at h; exact Except.noConfusion h
                | some b =>
                  rw [hb2, optCase_some] at h
                  simp only [Except.ok.injEq, Prod.mk.injEq] at h
                  obtain ⟨ht, hr⟩ := h
                  subst ht; subst hr
                  simp [sigTypeChars, basicChar_of_basicOfChar hb2]
    · intro cs fs rest h
      rw [parseFieldsF_succ] at h
      obtain ⟨t, r, heq, h2⟩ := exCase₂_eq_ok h
      have hone := ih1 cs t r heq
      by_cases hh : r.head? = some ')'
      · rw [if_pos hh] at h2
        simp only [Except.ok.injEq, Prod.mk.injEq] at h2
        obtain ⟨hf, hr⟩ := h2
        subst hf; subst hr
        cases r with
        | nil => simp at hh
        | cons a as =>
          simp only [List.head?_cons, Option.some.injEq] at hh
          subst hh
          simpa [sigListChars] using hone
      · rw [if_neg hh] at h2
        obtain ⟨fs', r', heq2, h3⟩ := exCase₂_eq_ok h2
        simp only [Except.ok.injEq, Prod.mk.injEq] at h3
        obtain ⟨hf, hr⟩ := h3
        subst hf; subst hr
        simp [sigListChars, List.append_assoc, ih2 r fs' r' heq2, hone]

theorem sigSize_pos (t : SigType) : 1 ≤ sigSize t := by
  cases t <;> simp [sigSize] <;> omega

theorem sigListSize_pos (fs : SigList) : 1 ≤ sigListSize fs := by
  cases fs with
  | single t => simpa [sigListSize] using sigSize_pos t
  | cons h t => have := sigSize_pos h; simp [sigListSize]; omega

theorem sigTypeChars_head (t : SigType) :
    ∃ c cs, sigTypeChars t = c :: cs ∧ c ≠ ')' ∧ c ≠ '}' := by
  cases t with
  | basic b => cases b <;> exact ⟨_, _, rfl, by decide, by decide⟩
  | array t => exact ⟨'a', _, rfl, by decide, by decide⟩
  | structT fs => exact ⟨'(', _, rfl, by decide, by decide⟩
  | dictEntry k v => exact ⟨'{', _, rfl, by decide, by decide⟩
  | variant => exact ⟨'v', _, rfl, by decide, by decide⟩

theorem sigListChars_head (fs : SigList) :
    ∃ c cs, sigListChars fs = c :: cs ∧ c ≠ ')' ∧ c ≠ '}' := by
  cases fs with
  | single t =>
    obtain ⟨c, cs, hc, h1, h2⟩ := sigTypeChars_head t
    exact ⟨c, cs, by simp [sigListChars, hc], h1, h2⟩
  | cons h t =>
    obtain ⟨c, cs, hc, h1, h2⟩ := sigTypeChars_head h
    exact ⟨c, cs ++ sigListChars t, by simp [sigListChars, hc], h1, h2⟩

mutual
theorem printParse_one (t : SigType) (rest : List Char) (f : Nat) (hf : sigSize t ≤ f) :
    parseOneF f (sigTypeChars t ++ rest) = .ok (t, rest) := by
  match f, t with
  | 0, t => exact absurd hf (by have := sigSize_pos t; omega)
  | f + 1, .basic b => exact parseOneF_basic f b rest
  | f + 1, .variant => exact parseOneF_v f rest
  | f + 1, .array t1 =>
    have ih := printParse_one t1 rest f (by simp [sigSize] at hf; omega)
    simp only [sigTypeChars, List.cons_append]
    rw [parseOneF_a, ih, exCase₂_ok]
  | f + 1, .structT fs =>
    have ih := printParse_fields fs rest f (by simp [sigSize] at hf; omega)
    simp only [sigTypeChars, List.cons_append, List.append_assoc, List.singleton_append,
      List.nil_append]
    rw [parseOneF_paren, ih, exCase₂_ok]
  | f + 1, .dictEntry k v =>
    have ih := printParse_one v ('}' :: rest) f (by simp [sigSize] at hf; omega)
    simp only [sigTypeChars, List.cons_append, List.append_assoc, List.singleton_append,
      List.nil_append]
    rw [parseOneF_brace, basicOfChar_basicChar, optCase_some, ih, exCase₂_ok]
    simp
termination_by 2 * sigSize t
decreasing_by
  all_goals simp_wf
  all_goals simp [sigSize, sigListSize]
  all_goals omega

theorem printParse_fields (fs : SigList) (rest : List Char) (f : Nat)
    (hf : sigListSize fs + 1 ≤ f) :
    parseFieldsF f (sigListChars fs ++ ')' :: rest) = .ok (fs, rest) := by
  match f, fs with
  | 0, fs => exact absurd hf (by omega)
  | f + 1, .single t =>
    have ih := printParse_one t (')' :: rest) f (by simp [sigListSize] at hf; omega)
    simp only [sigListChars]
    rw [parseFieldsF_succ, ih, exCase₂_ok]
    simp
  | f + 1, .cons h1 t1 =>
    have ih1 := printParse_one h1 (sigListChars t1 ++ ')' :: rest) f
      (by simp [sigListSize] at hf; have := sigListSize_pos t1; omega)
    have ih2 := printParse_fields t1 rest f
      (by simp [sigListSize] at hf; have := sigSize_pos h1; omega)
    simp only [sigListChars, List.append_assoc]
    rw [parseFieldsF_succ, ih1, exCase₂_ok]
    obtain ⟨c, cs, hc, hcp, hcb⟩ := sigListChars_head t1
    rw [hc, List.cons_append, List.head?_cons]
    rw [if_neg (by simp [hcp])]
    rw [← List.cons_append, ← hc, ih2, exCase₂_ok]
termination_by 2 * sigListSize fs + 1
decreasing_by
  all_goals simp_wf
  all_goals simp [sigSize, sigListSize]
  all_goals (try omega)
  all_goals (have hs9 := sigSize_pos h1; omega)
end

mutual
theorem sigSize_le_length (t : SigType) : sigSize t ≤ (sigTypeChars t).length := by
  match t with
  | .basic b => simp [sigSize, sigTypeChars]
  | .variant => simp [sigSize, sigTypeChars]
  | .array t1 =>
    have := sigSize_le_length t1
    simp [sigSize, sigTypeChars]
    omega
  | .structT fs =>
    have := sigListSize_le_length fs
    simp [sigSize, sigTypeChars]
    omega
  | .dictEntry k v =>
    have := sigSize_le_length v
    simp [sigSize, sigTypeChars]
    omega
theorem sigListSize_le_length (fs : SigList) : sigListSize fs ≤ (sigListChars fs).length := by
  match fs with
  | .single t => simpa [sigListSize, sigListChars] using sigSize_le_length t
  | .cons h1 t1 =>
    have hx := sigSize_le_length h1
    have hy := sigListSize_le_length t1
    simp [sigListSize, sigListChars]
    omega
end

theorem sigsum_le (ts : List SigType) :
    (ts.map sigSize).sum ≤ (signatureChars ts).length := by
  induction ts with
  | nil => simp [signatureChars]
  | cons t ts ih =>
    have := sigSize_le_length t
    simp only [signatureChars, List.map_cons, List.flatten_cons, List.length_append,
      List.sum_cons] at *
    omega

theorem parseAll_print (f : Nat) :
    ∀ cs ts, parseAllF f cs = .ok ts → signatureChars ts = cs := by
  induction f with
  | zero => intro cs ts h; rw [parseAllF_zero] at h; exact Except.noConfusion h
  | succ f ih =>
    intro cs ts h
    cases cs with
    | nil =>
      rw [parseAllF_nil] at h
      simp only [Except.ok.injEq] at h
      subst h
      rfl
    | cons c cs =>
      rw [parseAllF_cons] at h
      obtain ⟨t, rest, heq, h2⟩ := exCase₂_eq_ok h
      obtain ⟨ts', heq2, h3⟩ := exCase_eq_ok h2
      simp only [Except.ok.injEq] at h3
      subst h3
      have h4 := (parse_print f).1 (c :: cs) t rest heq
      have h5 := ih rest ts' heq2
      have : sigTypeChars t ++ signatureChars ts' = c :: cs := by rw [h5]; exact h4
      simpa [signatureChars] using this

theorem print_parseAll (ts : List SigType) :
    ∀ f, (ts.map sigSize).sum + 1 ≤ f → parseAllF f (signatureChars ts) = .ok ts := by
  induction ts with
  | nil =>
    intro f hf
    match f with
    | f + 1 => exact parseAllF_nil f
  | cons t ts ih =>
    intro f hf
    simp only [List.map_cons, List.sum_cons] at hf
    match f with
    | 0 => exact absurd hf (by omega)
    | f + 1 =>
      have h1 := printParse_one t (signatureChars ts) f (by omega)
      have h2 := ih f (by have := sigSize_pos t; omega)
      obtain ⟨c, cs, hc, _, _⟩ := sigTypeChars_head t
      have hsc : signatureChars (t :: ts) = sigTypeChars t ++ signatureChars ts := by
        simp [signatureChars]
      rw [hsc, hc, List.cons_append, parseAllF_cons, ← List.cons_append, ← hc, h1,
        exCase₂_ok, h2, exCase_ok]

/-- C1: for every valid D-Bus signature string s, parsing s and
serializing the resulting tree yields exactly s; for every signature
tree t, parsing its rendering returns t; and parsing fails with
`MalformedSignature` on unknown type codes, unterminated containers and
invalid nesting (non-basic dict keys, empty structs). -/
theorem c1_signature_parse_toString_roundTrip :
    (∀ (s : String) (ts : List SigType), parseSignature s = .ok ts → sigToString ts = s) ∧
    (∀ ts : List SigType, parseSignature (sigToString ts) = .ok ts) ∧
    parseSignature "z" = .error .malformedSignature ∧
    parseSignature "a" = .error .malformedSignature ∧
    parseSignature "(i" = .error .malformedSignature ∧
    parseSignature "\x7bsv" = .error .malformedSignature ∧
    parseSignature "\x7bvs\x7d" = .error .malformedSignature ∧
    parseSignature "()" = .error .malformedSignature := by
  refine ⟨?_, ?_, rfl, rfl, rfl, rfl, rfl, rfl⟩
  · intro s ts h
    have hp := parseAll_print (s.length + 1) s.data ts h
    cases s with
    | mk data => simp [sigToString, hp]
  · intro ts
    have hsum := sigsum_le ts
    exact print_parseAll ts ((sigToString ts).length + 1)
      (by have : (sigToString ts).length = (signatureChars ts).length := rfl; omega)

/-- Witness for C1: a concrete round trip on the signature string of an
array of string-to-variant dict entries. -/
theorem c1_signature_parse_toString_roundTrip_witness :
    parseSignature "a{sv}" = .ok [.array (.dictEntry .string .variant)] ∧
    sigToString [.array (.dictEntry .string .variant)] = "a{sv}" :=
  ⟨rfl, c1_signature_parse_toString_roundTrip.1 "a{sv}"
    [.array (.dictEntry .string .variant)] rfl⟩

/-! ## FilePath theorems (C8, C9, C10) -/

/-- C8: the three constructors `FilePath::from(&Path)`,
`FilePath::from(PathBuf)` and `FilePath::from(&str)`, applied to the
same underlying path, produce values that are all equal under the
derived `PartialEq`. -/
theorem c8_filePath_from_all_eq (p : List Nat) :
    filePathEq (filePathFromPath p) (filePathFromPathBuf p) = true ∧
    filePathEq (filePathFromPathBuf p) (filePathFromStr p) = true ∧
    filePathEq (filePathFromPath p) (filePathFromStr p) = true := by
  refine ⟨?_, ?_, ?_⟩ <;>
    simp [filePathEq, filePathFromPath, filePathFromPathBuf, filePathFromStr,
      pathBufFromStr, CowPath.bytes]

/-- C9: serializing a `FilePath` emits exactly the underlying path's
OS-encoded bytes with no trailing nul appended, deserialization applies
lossy UTF-8 conversion to the incoming bytes, and the
serialize-then-deserialize round trip returns an equal `FilePath`
exactly when the path's bytes are valid UTF-8. -/
theorem c9_filePath_serialize_lossy_roundTrip (fp : FilePath) :
    filePathSerialize fp = fp.inner.bytes ∧
    filePathDeserialize (filePathSerialize fp) =
      ⟨.owned (encodeUtf8 (decodeLossy fp.inner.bytes))⟩ ∧
    (filePathEq (filePathDeserialize (filePathSerialize fp)) fp = true ↔
      validUtf8 fp.inner.bytes = true) := by
  refine ⟨rfl, rfl, ?_⟩
  simp only [filePathDeserialize, filePathSerialize, filePathEq, pathBufFromStr,
    CowPath.bytes, beq_iff_eq]
  exact lossy_roundtrip_iff fp.inner.bytes

/-- Witness for C9: the ASCII path `"a"` round trips (its bytes are
valid UTF-8), and a path with byte 0xFF does not. -/
theorem c9_filePath_serialize_lossy_roundTrip_witness :
    filePathEq (filePathDeserialize (filePathSerialize ⟨.owned [0x61]⟩))
      ⟨.owned [0x61]⟩ = true ∧
    filePathEq (filePathDeserialize (filePathSerialize ⟨.owned [0xFF]⟩))
      ⟨.owned [0xFF]⟩ = false :=
  ⟨(c9_filePath_serialize_lossy_roundTrip ⟨.owned [0x61]⟩).2.2.mpr rfl,
    by
      have h := (c9_filePath_serialize_lossy_roundTrip ⟨.owned [0xFF]⟩).2.2
      have hv : validUtf8 [0xFF] = false := rfl
      cases he : filePathEq (filePathDeserialize (filePathSerialize ⟨.owned [0xFF]⟩))
        ⟨.owned [0xFF]⟩ with
      | false => rfl
      | true =>
        have hx : validUtf8 [0xFF] = true := h.mp he
        exact Bool.noConfusion (hv.symm.trans hx)⟩

/-- C10: converting a `PathBuf` into a `FilePath` and back via
`Into<PathBuf>` yields the original `PathBuf`. -/
theorem c10_filePath_pathBuf_roundTrip (p : List Nat) :
    filePathIntoPathBuf (filePathFromPathBuf p) = p := rfl


/-! ## Variant theorems (C3, C5) -/

/-- C3: a Variant constructed from a native value returns the original
value unchanged from `get` at the matching signature, and fails with
`SignatureMismatch`, never a wrong value, at every structurally
different requested signature. -/
theorem c3_variant_get_matching_and_mismatch :
    ∀ (x : Value) (var : Variant), Variant.fromNative x = .ok var →
      var.get (sigOf x) = .ok x ∧
      ∀ t : SigType, t ≠ sigOf x → var.get t = .error .signatureMismatch := by
  intro x var h
  unfold Variant.fromNative at h
  split_ifs at h with hd
  · simp only [Except.ok.injEq] at h
    subst h
    constructor
    · simp [Variant.get]
    · intro t ht
      simp only [Variant.get]
      rw [if_neg (fun hh => ht hh.symm)]

/-- Witness for C3: a byte variant round trips through `get` and
rejects a boolean request. -/
theorem c3_variant_get_matching_and_mismatch_witness :
    (Variant.get (sigOf (.basicV (.byte 7)))
        ⟨.basicV (.byte 7), sigOf (.basicV (.byte 7))⟩ = .ok (.basicV (.byte 7))) ∧
    Variant.get (.basic .boolean) ⟨.basicV (.byte 7), sigOf (.basicV (.byte 7))⟩ =
      .error .signatureMismatch :=
  ⟨(c3_variant_get_matching_and_mismatch (.basicV (.byte 7))
      ⟨.basicV (.byte 7), sigOf (.basicV (.byte 7))⟩ rfl).1,
    (c3_variant_get_matching_and_mismatch (.basicV (.byte 7))
      ⟨.basicV (.byte 7), sigOf (.basicV (.byte 7))⟩ rfl).2
      (.basic .boolean) (by decide)⟩

/-- C5: a variant-of-variant chain of depth 64 is constructible, depth
65 fails with `NestingTooDeep`, and the 64-limit is likewise enforced
by the array and struct constructors, the depth being computed
recursively through nested containers. -/
theorem c5_nesting_depth_limit :
    Variant.fromNative (variantChain 63) = .ok ⟨variantChain 63, .variant⟩ ∧
    Variant.fromNative (variantChain 64) = .error .nestingTooDeep ∧
    (∀ v : Value, 64 ≤ vdepth v → Variant.fromNative v = .error .nestingTooDeep) ∧
    (∀ (t : SigType) (elems : ValueList), allSig elems t = true →
      64 ≤ vdepthList elems → mkArray t elems = .error .nestingTooDeep) ∧
    (∀ (f : Value) (rest : ValueList), 64 ≤ max (vdepth f) (vdepthList rest) →
      mkStruct f rest = .error .nestingTooDeep) := by
  refine ⟨by decide, by decide, ?_, ?_, ?_⟩
  · intro v hv
    unfold Variant.fromNative
    rw [if_neg (by omega)]
  · intro t elems hall hd
    unfold mkArray
    rw [if_neg (by simp [hall]), if_neg (by omega)]
  · intro f rest hd
    unfold mkStruct
    rw [if_neg (by omega)]

/-- Witness for C5: the depth-64 chain value exceeds the limit for all
three constructors. -/
theorem c5_nesting_depth_limit_witness :
    Variant.fromNative (variantChain 64) = .error .nestingTooDeep ∧
    mkArray .variant (.cons (variantChain 64) .nil) = .error .nestingTooDeep ∧
    mkStruct (variantChain 64) .nil = .error .nestingTooDeep :=
  ⟨c5_nesting_depth_limit.2.2.1 (variantChain 64) (by decide),
    c5_nesting_depth_limit.2.2.2.1 .variant (.cons (variantChain 64) .nil)
      (by decide) (by decide),
    c5_nesting_depth_limit.2.2.2.2 (variantChain 64) .nil (by decide)⟩

/-! ## Dict theorems (C6) -/

theorem hmLookup_hmInsert_eq (m : List (BasicValue × Value)) (k : BasicValue)
    (v : Value) : hmLookup (hmInsert m k v) k = some v := by
  induction m with
  | nil => simp [hmInsert, hmLookup]
  | cons e rest ih =>
    obtain ⟨k', v'⟩ := e
    by_cases hk : k' = k
    · simp [hmInsert, hmLookup, hk]
    · simp [hmInsert, hmLookup, hk, ih]

theorem hmLookup_hmInsert_ne (m : List (BasicValue × Value)) (ki k : BasicValue)
    (v : Value) (h : ki ≠ k) : hmLookup (hmInsert m ki v) k = hmLookup m k := by
  induction m with
  | nil => simp [hmInsert, hmLookup, h]
  | cons e rest ih =>
    obtain ⟨k', v'⟩ := e
    by_cases hk : k' = ki
    · simp [hmInsert, hmLookup, hk, h]
    · simp only [hmInsert, if_neg hk]
      by_cases hk2 : k' = k
      · simp [hmLookup, hk2]
      · simp [hmLookup, hk2, ih]

theorem dictInner_fold (entries : List (BasicValue × Value)) :
    ∀ (m : List (BasicValue × Value)) (k : BasicValue),
      hmLookup (entries.foldl (fun m e => hmInsert m e.1 e.2) m) k =
        match entries.reverse.find? (fun e => e.1 == k) with
        | some e => some e.2
        | none => hmLookup m k := by
  induction entries with
  | nil => intro m k; simp
  | cons e es ih =>
    intro m k
    rw [List.foldl_cons, ih]
    rw [List.reverse_cons, List.find?_append]
    cases hes : es.reverse.find? (fun e => e.1 == k) with
    | some x => simp [Option.orElse]
    | none =>
      simp only [Option.orElse, Option.none_orElse]
      by_cases hk : e.1 = k
      · simp [List.find?, hk, hmLookup_hmInsert_eq]
      · have hb : (e.1 == k) = false := beq_eq_false_iff_ne.mpr hk
        simp [List.find?, hb, hmLookup_hmInsert_ne m e.1 k e.2 hk]

/-- C6: for every DictEntry sequence, `inner()` yields the mapping in
which a key maps to the value of its last occurrence (later entries
overwrite earlier ones), and duplicate keys produce no error —
`dictInner` is total. -/
theorem c6_dict_inner_last_wins :
    ∀ (entries : List (BasicValue × Value)) (k : BasicValue),
      hmLookup (dictInner entries) k =
        (entries.reverse.find? (fun e => e.1 == k)).map (fun e => e.2) := by
  intro entries k
  unfold dictInner
  rw [dictInner_fold entries [] k]
  cases entries.reverse.find? (fun e => e.1 == k) <;> simp [hmLookup]

/-! ## Connection theorems (C7) -/

theorem awaitReply_skip (serial : Nat) (r : WireMsg) (hr : isReplyTo serial r = true) :
    ∀ pre : List WireMsg, (∀ m ∈ pre, isReplyTo serial m = false) →
      awaitReply serial (pre ++ [r]) = .ok (r, pre) := by
  intro pre
  induction pre with
  | nil => intro _; simp [awaitReply, hr]
  | cons m ms ih =>
    intro h
    have hm : isReplyTo serial m = false := h m (by simp)
    simp only [List.cons_append, awaitReply, hm, Bool.false_eq_true, if_false,
      List.append_eq]
    rw [ih (fun x hx => h x (by simp [hx]))]

/-- C7: on an already-Hello'd (ready) connection, a call answered by
the bus with an error-type reply — as a second `Hello` is — returns
`MethodError` carrying the peer-reported error name and body, not a
transport-level error; unrelated earlier messages are queued, the
serial advances, and the connection stays ready (usable). -/
theorem c7_second_hello_returns_methodError :
    ∀ (c : Connection) (pre : List WireMsg) (name : List Nat) (body : List Value),
      c.state = .ready →
      (∀ m ∈ pre, isReplyTo c.serial m = false) →
      callMethod c (pre ++ [secondHelloReply c.serial name body]) =
        (.error (.methodError name body),
          { c with serial := c.serial + 1, queue := c.queue ++ pre }) ∧
      (.methodError name body : ConnectionErr) ≠ .ioFailure ∧
      ({ c with serial := c.serial + 1, queue := c.queue ++ pre } : Connection).state =
        .ready := by
  intro c pre name body hready hpre
  have hr : isReplyTo c.serial (secondHelloReply c.serial name body) = true := by
    simp [isReplyTo, secondHelloReply]
  refine ⟨?_, by simp, by simp [hready]⟩
  unfold callMethod
  rw [if_neg (by simp [hready])]
  rw [awaitReply_skip c.serial _ hr pre hpre]
  rfl

/-- Witness for C7: a ready connection with one pending signal in front
of the error reply. -/
theorem c7_second_hello_returns_methodError_witness :
    callMethod ⟨.ready, 2, some [58], []⟩
        ([⟨.signal, none, [], []⟩] ++ [secondHelloReply 2 [70] []]) =
      (.error (.methodError [70] []), ⟨.ready, 3, some [58], [⟨.signal, none, [], []⟩]⟩) :=
  (c7_second_hello_returns_methodError ⟨.ready, 2, some [58], []⟩
    [⟨.signal, none, [], []⟩] [70] [] rfl (by decide)).1


/-! ## Alignment theorems (C4) -/

theorem alignOf_pos : ∀ t : SigType, 1 ≤ alignOf t
  | .basic b => by cases b <;> simp [alignOf]
  | .array t => by simpa [alignOf] using alignOf_pos t
  | .structT _ => by simp [alignOf]
  | .dictEntry _ _ => by simp [alignOf]
  | .variant => by simp [alignOf]

theorem padLen_lt {a : Nat} (off : Nat) (ha : 1 ≤ a) : padLen off a < a := by
  unfold padLen
  exact Nat.mod_lt _ (by omega)

theorem dvd_alignUp {a : Nat} (off : Nat) (ha : 1 ≤ a) : a ∣ alignUp off a := by
  unfold alignUp padLen
  have hq := Nat.div_add_mod off a
  have hr : off % a < a := Nat.mod_lt _ (by omega)
  by_cases h0 : off % a = 0
  · rw [h0]
    simp only [Nat.sub_zero, Nat.mod_self, Nat.add_zero]
    exact ⟨off / a, by omega⟩
  · rw [Nat.mod_eq_of_lt (by omega)]
    refine ⟨off / a + 1, ?_⟩
    have : a * (off / a + 1) = a * (off / a) + a := by ring
    omega

theorem alignUp_mod {a : Nat} (off : Nat) (ha : 1 ≤ a) : alignUp off a % a = 0 :=
  Nat.mod_eq_zero_of_dvd (dvd_alignUp off ha)

theorem padLen_of_aligned {a off : Nat} (ha : 1 ≤ a) (h : a ∣ off) :
    padLen off a = 0 := by
  have h0 : off % a = 0 := Nat.mod_eq_zero_of_dvd h
  unfold padLen
  rw [h0]
  simp

theorem padLen_alignUp {a : Nat} (off : Nat) (ha : 1 ≤ a) :
    padLen (alignUp off a) a = 0 :=
  padLen_of_aligned ha (dvd_alignUp off ha)

theorem alignUp_alignUp {a : Nat} (off : Nat) (ha : 1 ≤ a) :
    alignUp (alignUp off a) a = alignUp off a := by
  unfold alignUp
  rw [show padLen (off + padLen off a) a = 0 from padLen_alignUp off ha]
  omega

theorem le_alignUp (off a : Nat) : off ≤ alignUp off a := by
  unfold alignUp; omega

theorem alignUp_le {a : Nat} (off o : Nat) (ha : 1 ≤ a) (hoff : off ≤ o)
    (hdvd : a ∣ o) : alignUp off a ≤ o := by
  by_contra hlt
  push_neg at hlt
  have h1 : alignUp off a - o < a := by
    have := padLen_lt off ha
    unfold alignUp at *
    omega
  have h2 : a ∣ (alignUp off a - o) := Nat.dvd_sub' (dvd_alignUp off ha) hdvd
  have h3 : 0 < alignUp off a - o := by omega
  have := Nat.le_of_dvd h3 h2
  omega

theorem padLen_one (off : Nat) : padLen off 1 = 0 := by
  simp [padLen, Nat.mod_one]

theorem alignUp_one (off : Nat) : alignUp off 1 = off := by
  simp [alignUp, padLen_one]

theorem padBytes_one (off : Nat) : padBytes off 1 = [] := by
  simp [padBytes, padLen_one]

theorem padBytes_alignUp {a : Nat} (off : Nat) (ha : 1 ≤ a) :
    padBytes (alignUp off a) a = [] := by
  simp [padBytes, padLen_alignUp off ha]

theorem encodeValue_split (e : Endian) (off : Nat) (v : Value) :
    encodeValue e off v =
      padBytes off (alignOf (sigOf v)) ++
        encodeValue e (alignUp off (alignOf (sigOf v))) v := by
  cases v with
  | basicV b =>
    cases b <;>
      simp [encodeValue, encodeBasic, sigOf, basicSigOf, alignOf, padBytes_one,
        alignUp_one, padBytes_alignUp, List.append_assoc]
  | arrayV t elems =>
    have ha := alignOf_pos t
    simp only [encodeValue, sigOf, alignOf, arrayLenPos, arrayBodyPos,
      alignUp_alignUp _ ha, padBytes_alignUp _ ha, List.nil_append,
      List.append_assoc]
  | structV f rest =>
    simp only [encodeValue, sigOf, alignOf, alignUp_alignUp _ (by omega : (1:Nat) ≤ 8),
      padBytes_alignUp _ (by omega : (1:Nat) ≤ 8), List.nil_append, List.append_assoc]
  | dictEntryV k v =>
    simp only [encodeValue, sigOf, alignOf, alignUp_alignUp _ (by omega : (1:Nat) ≤ 8),
      padBytes_alignUp _ (by omega : (1:Nat) ≤ 8), List.nil_append, List.append_assoc]
  | variantV v =>
    simp [encodeValue, sigOf, alignOf, padBytes_one, alignUp_one]

/-- C4: in an encoded body, for any two consecutive values, the bytes
of the second value consist of zero padding followed by its encoding at
the smallest offset that is at least the end of the first value and a
multiple of the second value's required alignment (all offsets measured
from offset 0 of the whole message buffer). -/
theorem c4_body_alignment (e : Endian) (off : Nat) (u v : Value) (vs : List Value) :
    encodeBody e off (u :: v :: vs) =
      encodeValue e off u ++
        (padBytes (off + (encodeValue e off u).length) (alignOf (sigOf v)) ++
          (encodeValue e
            (alignUp (off + (encodeValue e off u).length) (alignOf (sigOf v))) v ++
            encodeBody e
              (off + (encodeValue e off u).length +
                (encodeValue e (off + (encodeValue e off u).length) v).length) vs)) ∧
    (alignOf (sigOf v)) ∣
      alignUp (off + (encodeValue e off u).length) (alignOf (sigOf v)) ∧
    off + (encodeValue e off u).length ≤
      alignUp (off + (encodeValue e off u).length) (alignOf (sigOf v)) ∧
    ∀ o, off + (encodeValue e off u).length ≤ o → (alignOf (sigOf v)) ∣ o →
      alignUp (off + (encodeValue e off u).length) (alignOf (sigOf v)) ≤ o := by
  have ha : 1 ≤ alignOf (sigOf v) := alignOf_pos (sigOf v)
  refine ⟨?_, dvd_alignUp _ ha, le_alignUp _ _, fun o h1 h2 => alignUp_le _ o ha h1 h2⟩
  show encodeValue e off u ++
      encodeBody e (off + (encodeValue e off u).length) (v :: vs) = _
  rw [show encodeBody e (off + (encodeValue e off u).length) (v :: vs) =
      encodeValue e (off + (encodeValue e off u).length) v ++
        encodeBody e (off + (encodeValue e off u).length +
          (encodeValue e (off + (encodeValue e off u).length) v).length) vs from rfl]
  rw [encodeValue_split e (off + (encodeValue e off u).length) v]
  simp [List.append_assoc]

/-- Witness for C4: a byte followed by a uint32 in a body starting at
offset 0 — the second value starts at offset 4, the smallest multiple
of 4 at or after 1; minimality instantiated at offset 8. -/
theorem c4_body_alignment_witness :
    encodeBody .little 0 [.basicV (.byte 9), .basicV (.uint32 5)] =
      [9] ++ ([0, 0, 0] ++ ([5, 0, 0, 0] ++ [])) ∧
    alignUp (0 + (encodeValue .little 0 (.basicV (.byte 9))).length) 4 ≤ 8 :=
  ⟨by
    have h := (c4_body_alignment .little 0 (.basicV (.byte 9))
      (.basicV (.uint32 5)) []).1
    rw [h]
    rfl,
    (c4_body_alignment .little 0 (.basicV (.byte 9)) (.basicV (.uint32 5)) []).2.2.2
      8 (by decide) (by decide)⟩


/-! ## Decoder round-trip lemmas -/

theorem encodeWordLE_length (w x : Nat) : (encodeWordLE w x).length = w := by
  induction w generalizing x with
  | zero => rfl
  | succ w ih => simp [encodeWordLE, ih]

theorem encodeWord_length (e : Endian) (w x : Nat) :
    (encodeWord e w x).length = w := by
  cases e <;> simp [encodeWord, encodeWordLE_length]

theorem wordOfBytesLE_encodeWordLE (w : Nat) :
    ∀ x, x < 256 ^ w → wordOfBytesLE (encodeWordLE w x) = x := by
  induction w with
  | zero => intro x h; interval_cases x; rfl
  | succ w ih =>
    intro x h
    have hp : (256:Nat) ^ (w + 1) = 256 ^ w * 256 := pow_succ 256 w
    have hdiv : x / 256 < 256 ^ w := by omega
    simp [encodeWordLE, wordOfBytesLE, ih (x / 256) hdiv]
    omega

theorem wordOfBytes_encodeWord (e : Endian) (w x : Nat) (h : x < 256 ^ w) :
    wordOfBytes e (encodeWord e w x) = x := by
  cases e with
  | little => exact wordOfBytesLE_encodeWordLE w x h
  | big =>
    simp [wordOfBytes, encodeWord, List.reverse_reverse]
    exact wordOfBytesLE_encodeWordLE w x h

theorem toTwos_lt (w : Nat) (i : Int) : toTwos w i < 2 ^ (8 * w) := by
  have hc : ((2:Int) ^ (8 * w)) = (((2:Nat) ^ (8 * w) : Nat) : Int) := by push_cast; ring
  have h0 : (0:Int) < (2:Int) ^ (8 * w) := by positivity
  have h1 : i % ((2:Int) ^ (8 * w)) < (2:Int) ^ (8 * w) := Int.emod_lt_of_pos i h0
  have h2 : 0 ≤ i % ((2:Int) ^ (8 * w)) := Int.emod_nonneg i (by positivity)
  rw [toTwos]
  omega

theorem fromTwos_toTwos (w : Nat) (i : Int) (hw : w = 2 ∨ w = 4 ∨ w = 8)
    (hlo : -(2 ^ (8 * w - 1)) ≤ i) (hhi : i < 2 ^ (8 * w - 1)) :
    fromTwos w (toTwos w i) = i := by
  have hc : ((2:Int) ^ (8 * w)) = (((2:Nat) ^ (8 * w) : Nat) : Int) := by push_cast; ring
  rcases hw with h | h | h <;> subst h <;>
    simp only [fromTwos, toTwos] <;> norm_num <;> split <;> omega

theorem readBytes_len (n : Nat) (xs post : List Nat) (h : xs.length = n) :
    readBytes n (xs ++ post) = .ok (xs, post) := by
  subst h
  rw [readBytes, if_pos (by simp)]
  rw [List.take_left, List.drop_left]

theorem skipPad_append (a off : Nat) (rest : List Nat) :
    skipPad a off (padBytes off a ++ rest) = .ok (alignUp off a, rest) := by
  rw [skipPad, if_pos (by simp [padBytes])]
  have h : (padBytes off a ++ rest).drop (padLen off a) = rest := by
    have h2 : (padBytes off a).length = padLen off a := by simp [padBytes]
    rw [← h2, List.drop_left]
  rw [h]


theorem alignOf_le : ∀ t : SigType, alignOf t ≤ 8
  | .basic b => by cases b <;> simp [alignOf]
  | .array t => by simpa [alignOf] using alignOf_le t
  | .structT _ => by simp [alignOf]
  | .dictEntry _ _ => by simp [alignOf]
  | .variant => by simp [alignOf]

theorem padBytes_length (off a : Nat) : (padBytes off a).length = padLen off a := by
  simp [padBytes]

theorem encodeBasic_length_le (e : Endian) (off : Nat) (b : BasicValue) :
    (encodeBasic e off b).length ≤ bbound b := by
  cases b <;>
    simp [encodeBasic, bbound, padBytes_length, encodeWord_length] <;>
    [skip; skip; skip; skip; skip; skip; skip; skip; skip; skip] <;>
    first
      | (have hp := padLen_lt off (show (1:Nat) ≤ 4 by omega); omega)
      | (have hp := padLen_lt off (show (1:Nat) ≤ 2 by omega); omega)
      | (have hp := padLen_lt off (show (1:Nat) ≤ 8 by omega); omega)

theorem encodeBasic_length_pos (e : Endian) (off : Nat) (b : BasicValue) :
    1 ≤ (encodeBasic e off b).length := by
  cases b <;> simp [encodeBasic, padBytes_length, encodeWord_length] <;> omega

mutual
theorem encodeValue_length_le (e : Endian) (off : Nat) (v : Value) :
    (encodeValue e off v).length ≤ vbound v := by
  match v with
  | .basicV b => simpa [encodeValue, vbound] using encodeBasic_length_le e off b
  | .arrayV t elems =>
    have h1 := padLen_lt off (alignOf_pos t)
    have h2 := padLen_lt (alignUp off (alignOf t)) (show (1:Nat) ≤ 4 by omega)
    have h3 := padLen_lt (arrayLenPos off (alignOf t) + 4) (alignOf_pos t)
    have h4 := alignOf_le t
    have h5 := encodeList_length_le e (arrayBodyPos off (alignOf t)) elems
    simp only [encodeValue, vbound, List.length_append, padBytes_length,
      encodeWord_length]
    omega
  | .structV f rest =>
    have h1 := padLen_lt off (show (1:Nat) ≤ 8 by omega)
    have h2 := encodeValue_length_le e (alignUp off 8) f
    have h3 := encodeList_length_le e
      (alignUp off 8 + (encodeValue e (alignUp off 8) f).length) rest
    simp only [encodeValue, vbound, List.length_append, padBytes_length]
    omega
  | .dictEntryV k val =>
    have h1 := padLen_lt off (show (1:Nat) ≤ 8 by omega)
    have h2 := encodeBasic_length_le e (alignUp off 8) k
    have h3 := encodeValue_length_le e
      (alignUp off 8 + (encodeBasic e (alignUp off 8) k).length) val
    simp only [encodeValue, vbound, List.length_append, padBytes_length]
    omega
  | .variantV v' =>
    have h2 := encodeValue_length_le e
      (off + 2 + (sigTypeChars (sigOf v')).length) v'
    simp only [encodeValue, vbound, List.length_cons, List.length_append,
      List.length_map]
    omega
theorem encodeList_length_le (e : Endian) (off : Nat) (l : ValueList) :
    (encodeList e off l).length ≤ vboundList l := by
  match l with
  | .nil => simp [encodeList, vboundList]
  | .cons h t =>
    have h1 := encodeValue_length_le e off h
    have h2 := encodeList_length_le e (off + (encodeValue e off h).length) t
    simp only [encodeList, vboundList, List.length_append]
    omega
end

theorem encodeValue_length_pos : ∀ (e : Endian) (off : Nat) (v : Value),
    1 ≤ (encodeValue e off v).length
  | e, off, .basicV b => by
    simpa [encodeValue] using encodeBasic_length_pos e off b
  | e, off, .arrayV t elems => by
    simp [encodeValue, encodeWord_length, padBytes_length]
    omega
  | e, off, .structV f rest => by
    have h := encodeValue_length_pos e (alignUp off 8) f
    simp only [encodeValue, List.length_append]
    omega
  | e, off, .dictEntryV k v => by
    have h := encodeBasic_length_pos e (alignUp off 8) k
    simp only [encodeValue, List.length_append]
    omega
  | e, off, .variantV v' => by
    simp [encodeValue]

theorem vlCount_le_encodeList_length (e : Endian) :
    ∀ (l : ValueList) (off : Nat), vlCount l ≤ (encodeList e off l).length
  | .nil, off => by simp [vlCount, encodeList]
  | .cons h t, off => by
    have h1 := encodeValue_length_pos e off h
    have h2 := vlCount_le_encodeList_length e t (off + (encodeValue e off h).length)
    simp only [vlCount, encodeList, List.length_append]
    omega

theorem vwfList_mem : ∀ (l : ValueList) (x : Value),
    vlMem x l → vwfList l = true → vwf x = true
  | .nil, x, hm, _ => absurd hm (by simp [vlMem])
  | .cons h t, x, hm, hw => by
    rw [vwfList, Bool.and_eq_true] at hw
    rcases hm with h1 | h1
    · exact h1 ▸ hw.1
    · exact vwfList_mem t x h1 hw.2

theorem vdepthList_mem : ∀ (l : ValueList) (x : Value),
    vlMem x l → vdepth x ≤ vdepthList l
  | .nil, x, hm => absurd hm (by simp [vlMem])
  | .cons h t, x, hm => by
    rcases hm with h1 | h1
    · subst h1; simp [vdepthList]
    · have := vdepthList_mem t x h1
      simp only [vdepthList]
      omega

theorem allSig_mem : ∀ (l : ValueList) (t : SigType) (x : Value),
    vlMem x l → allSig l t = true → sigOf x = t
  | .nil, t, x, hm, _ => absurd hm (by simp [vlMem])
  | .cons h tl, t, x, hm, ha => by
    rw [allSig, Bool.and_eq_true, beq_iff_eq] at ha
    rcases hm with h1 | h1
    · exact h1 ▸ ha.1
    · exact allSig_mem tl t x h1 ha.2


theorem decodeBasic_encodeBasic (e : Endian) (off : Nat) (b : BasicValue)
    (post : List Nat) (h : bwf b = true) :
    decodeBasic e off (encodeBasic e off b ++ post) (basicSigOf b) =
      .ok (b, off + (encodeBasic e off b).length, post) := by
  cases b with
  | byte n => rfl
  | boolean bl =>
    simp only [encodeBasic, basicSigOf, decodeBasic, List.append_assoc]
    rw [skipPad_append, exCase₂_ok,
      readBytes_len 4 _ _ (encodeWord_length e 4 _), exCase₂_ok,
      wordOfBytes_encodeWord e 4 _ (by cases bl <;> norm_num)]
    cases bl <;>
      simp [alignUp, padBytes_length, encodeWord_length, Nat.add_assoc]
  | int16 i =>
    simp only [bwf, decide_eq_true_eq] at h
    norm_num at h
    simp only [encodeBasic, basicSigOf, decodeBasic, List.append_assoc]
    rw [skipPad_append, exCase₂_ok,
      readBytes_len 2 _ _ (encodeWord_length e 2 _), exCase₂_ok,
      wordOfBytes_encodeWord e 2 _ (by have := toTwos_lt 2 i; norm_num at this ⊢; omega),
      fromTwos_toTwos 2 i (Or.inl rfl) (by norm_num; omega) (by norm_num; omega)]
    simp [alignUp, padBytes_length, encodeWord_length, Nat.add_assoc]
  | uint16 n =>
    simp only [bwf, decide_eq_true_eq] at h
    norm_num at h
    simp only [encodeBasic, basicSigOf, decodeBasic, List.append_assoc]
    rw [skipPad_append, exCase₂_ok,
      readBytes_len 2 _ _ (encodeWord_length e 2 _), exCase₂_ok,
      wordOfBytes_encodeWord e 2 _ (by norm_num; omega)]
    simp [alignUp, padBytes_length, encodeWord_length, Nat.add_assoc]
  | int32 i =>
    simp only [bwf, decide_eq_true_eq] at h
    norm_num at h
    simp only [encodeBasic, basicSigOf, decodeBasic, List.append_assoc]
    rw [skipPad_append, exCase₂_ok,
      readBytes_len 4 _ _ (encodeWord_length e 4 _), exCase₂_ok,
      wordOfBytes_encodeWord e 4 _ (by have := toTwos_lt 4 i; norm_num at this ⊢; omega),
      fromTwos_toTwos 4 i (Or.inr (Or.inl rfl)) (by norm_num; omega) (by norm_num; omega)]
    simp [alignUp, padBytes_length, encodeWord_length, Nat.add_assoc]
  | uint32 n =>
    simp only [bwf, decide_eq_true_eq] at h
    norm_num at h
    simp only [encodeBasic, basicSigOf, decodeBasic, List.append_assoc]
    rw [skipPad_append, exCase₂_ok,
      readBytes_len 4 _ _ (encodeWord_length e 4 _), exCase₂_ok,
      wordOfBytes_encodeWord e 4 _ (by norm_num; omega)]
    simp [alignUp, padBytes_length, encodeWord_length, Nat.add_assoc]
  | int64 i =>
    simp only [bwf, decide_eq_true_eq] at h
    norm_num at h
    simp only [encodeBasic, basicSigOf, decodeBasic, List.append_assoc]
    rw [skipPad_append, exCase₂_ok,
      readBytes_len 8 _ _ (encodeWord_length e 8 _), exCase₂_ok,
      wordOfBytes_encodeWord e 8 _ (by have := toTwos_lt 8 i; norm_num at this ⊢; omega),
      fromTwos_toTwos 8 i (Or.inr (Or.inr rfl)) (by norm_num; omega) (by norm_num; omega)]
    simp [alignUp, padBytes_length, encodeWord_length, Nat.add_assoc]
  | uint64 n =>
    simp only [bwf, decide_eq_true_eq] at h
    norm_num at h
    simp only [encodeBasic, basicSigOf, decodeBasic, List.append_assoc]
    rw [skipPad_append, exCase₂_ok,
      readBytes_len 8 _ _ (encodeWord_length e 8 _), exCase₂_ok,
      wordOfBytes_encodeWord e 8 _ (by norm_num; omega)]
    simp [alignUp, padBytes_length, encodeWord_length, Nat.add_assoc]
  | double bits =>
    simp only [bwf, decide_eq_true_eq] at h
    norm_num at h
    simp only [encodeBasic, basicSigOf, decodeBasic, List.append_assoc]
    rw [skipPad_append, exCase₂_ok,
      readBytes_len 8 _ _ (encodeWord_length e 8 _), exCase₂_ok,
      wordOfBytes_encodeWord e 8 _ (by norm_num; omega)]
    simp [alignUp, padBytes_length, encodeWord_length, Nat.add_assoc]
  | string bs =>
    rw [bwf, Bool.and_eq_true, decide_eq_true_eq] at h
    simp only [encodeBasic, basicSigOf, decodeBasic, List.append_assoc]
    rw [skipPad_append, exCase₂_ok,
      readBytes_len 4 _ _ (encodeWord_length e 4 _), exCase₂_ok,
      wordOfBytes_encodeWord e 4 _ (by norm_num; omega),
      readBytes_len bs.length bs _ rfl, exCase₂_ok, if_pos h.1]
    simp only [List.cons_append, List.nil_append]
    simp [alignUp, padBytes_length, encodeWord_length, Nat.add_assoc]
  | objectPath bs =>
    rw [bwf, Bool.and_eq_true, decide_eq_true_eq] at h
    simp only [encodeBasic, basicSigOf, decodeBasic, List.append_assoc]
    rw [skipPad_append, exCase₂_ok,
      readBytes_len 4 _ _ (encodeWord_length e 4 _), exCase₂_ok,
      wordOfBytes_encodeWord e 4 _ (by norm_num; omega),
      readBytes_len bs.length bs _ rfl, exCase₂_ok, if_pos h.1]
    simp only [List.cons_append, List.nil_append]
    simp [alignUp, padBytes_length, encodeWord_length, Nat.add_assoc]
  | signatureV ts =>
    rw [bwf, decide_eq_true_eq] at h
    simp only [encodeBasic, basicSigOf, decodeBasic, List.cons_append,
      List.append_assoc]
    rw [readBytes_len ((signatureChars ts).length)
      ((signatureChars ts).map Char.toNat) _ (by simp), exCase₂_ok]
    simp only [List.cons_append, List.nil_append]
    have hmap : ((signatureChars ts).map Char.toNat).map Char.ofNat =
        signatureChars ts := by
      rw [List.map_map]
      have hfun : (Char.ofNat ∘ Char.toNat) = id := funext Char.ofNat_toNat
      rw [hfun, List.map_id]
    rw [hmap, print_parseAll ts ((signatureChars ts).length + 1)
      (by have := sigsum_le ts; omega)]
    simp [List.length_map, Nat.add_assoc]
    omega


theorem ok_offset_congr {α : Type _} (v : α) (s : List Nat) {x y : Nat} (h : x = y) :
    (.ok (v, x, s) : Except DecErr (α × Nat × List Nat)) = .ok (v, y, s) := by
  rw [h]

theorem decodeFieldsWith_ok
    (dv : Endian → SigType → Nat → List Nat → Except DecErr (Value × Nat × List Nat))
    (e : Endian) :
    ∀ (rest : ValueList) (f : Value) (off : Nat) (post : List Nat),
    (∀ x, (x = f ∨ vlMem x rest) → ∀ off' post',
      dv e (sigOf x) off' (encodeValue e off' x ++ post') =
        .ok (x, off' + (encodeValue e off' x).length, post')) →
    decodeFieldsWith dv e (toSigList (sigOf f) (sigOfList rest)) off
        (encodeValue e off f ++
          (encodeList e (off + (encodeValue e off f).length) rest ++ post)) =
      .ok ((f, rest), off + (encodeValue e off f).length +
        (encodeList e (off + (encodeValue e off f).length) rest).length, post)
  | .nil, f, off, post, hyp => by
    simp only [sigOfList, toSigList, decodeFieldsWith, encodeList,
      List.nil_append, List.length_nil]
    rw [hyp f (Or.inl rfl) off post, exCase₃_ok]
    exact ok_offset_congr _ _ (by omega)
  | .cons h t, f, off, post, hyp => by
    simp only [sigOfList, toSigList, decodeFieldsWith, encodeList,
      List.append_assoc, List.length_append]
    rw [hyp f (Or.inl rfl) off _, exCase₃_ok]
    rw [decodeFieldsWith_ok dv e t h (off + (encodeValue e off f).length) post
      (fun x hx => hyp x (Or.inr hx)), exCase₃_ok]
    exact ok_offset_congr _ _ (by omega)

theorem decodeElemsWith_ok
    (dv : Endian → SigType → Nat → List Nat → Except DecErr (Value × Nat × List Nat))
    (e : Endian) (t : SigType) :
    ∀ (elems : ValueList) (budget off : Nat) (post : List Nat),
    (∀ x, vlMem x elems → ∀ off' post',
      dv e t off' (encodeValue e off' x ++ post') =
        .ok (x, off' + (encodeValue e off' x).length, post')) →
    vlCount elems ≤ budget →
    decodeElemsWith dv e t budget (off + (encodeList e off elems).length) off
        (encodeList e off elems ++ post) =
      .ok (elems, off + (encodeList e off elems).length, post)
  | .nil, budget, off, post, hyp, hc => by
    cases budget <;>
      simp [decodeElemsWith, encodeList]
  | .cons h tl, budget, off, post, hyp, hc => by
    match budget with
    | 0 => simp [vlCount] at hc
    | b + 1 =>
      simp only [encodeList, List.length_append, List.append_assoc,
        ← Nat.add_assoc]
      rw [decodeElemsWith]
      rw [if_neg (by have := encodeValue_length_pos e off h; omega)]
      rw [hyp h (Or.inl rfl) off _, exCase₃_ok]
      rw [decodeElemsWith_ok dv e t tl b (off + (encodeValue e off h).length) post
        (fun x hx => hyp x (Or.inr hx))
        (by simp only [vlCount] at hc; omega), exCase₃_ok]


theorem decodeValueP_ok :
    ∀ (fv : Nat) (v : Value) (e : Endian) (off : Nat) (post : List Nat),
    vwf v = true → vdepth v < fv →
    decodeValueP fv e (sigOf v) off (encodeValue e off v ++ post) =
      .ok (v, off + (encodeValue e off v).length, post) := by
  intro fv
  induction fv with
  | zero => intro v e off post _ hd; omega
  | succ fv ih =>
    intro v e off post hwf hd
    cases v with
    | basicV b =>
      simp only [vwf] at hwf
      simp only [sigOf, encodeValue, decodeValueP]
      rw [decodeBasic_encodeBasic e off b post hwf, exCase₃_ok]
    | arrayV t elems =>
      simp only [vwf, Bool.and_eq_true, decide_eq_true_eq] at hwf
      obtain ⟨hsig, hlist, hbnd⟩ := hwf
      simp only [vdepth] at hd
      simp only [sigOf, encodeValue, decodeValueP, arrayLenPos, arrayBodyPos,
        List.append_assoc]
      rw [skipPad_append, exCase₂_ok]
      rw [skipPad_append, exCase₂_ok]
      rw [readBytes_len 4 _ _ (encodeWord_length e 4 _), exCase₂_ok]
      rw [wordOfBytes_encodeWord e 4 _ (by
        have h1 := encodeList_length_le e
          (alignUp (alignUp (alignUp off (alignOf t)) 4 + 4) (alignOf t)) elems
        norm_num
        omega)]
      rw [skipPad_append, exCase₂_ok]
      rw [decodeElemsWith_ok (decodeValueP fv) e t elems
        ((encodeList e (alignUp (alignUp (alignUp off (alignOf t)) 4 + 4)
          (alignOf t)) elems).length + 1)
        (alignUp (alignUp (alignUp off (alignOf t)) 4 + 4) (alignOf t)) post
        (fun x hx off' post' => by
          have hx1 := allSig_mem elems t x hx hsig
          have hx2 := vwfList_mem elems x hx hlist
          have hx3 := vdepthList_mem elems x hx
          rw [← hx1]
          exact ih x e off' post' hx2 (by omega))
        (by
          have := vlCount_le_encodeList_length e elems
            (alignUp (alignUp (alignUp off (alignOf t)) 4 + 4) (alignOf t))
          omega), exCase₃_ok]
      exact ok_offset_congr _ _ (by
        simp [alignUp, padBytes_length, encodeWord_length]
        omega)
    | structV f rest =>
      simp only [vwf, Bool.and_eq_true] at hwf
      obtain ⟨hf, hrest⟩ := hwf
      simp only [vdepth] at hd
      simp only [sigOf, encodeValue, decodeValueP, List.append_assoc]
      rw [skipPad_append, exCase₂_ok]
      rw [decodeFieldsWith_ok (decodeValueP fv) e rest f (alignUp off 8) post
        (fun x hx off' post' => by
          rcases hx with h1 | h1
          · subst h1
            exact ih x e off' post' hf (by omega)
          · have hx2 := vwfList_mem rest x h1 hrest
            have hx3 := vdepthList_mem rest x h1
            exact ih x e off' post' hx2 (by omega)), exCase₃_ok]
      exact ok_offset_congr _ _ (by
        simp [alignUp, padBytes_length]
        omega)
    | dictEntryV k val =>
      simp only [vwf, Bool.and_eq_true] at hwf
      obtain ⟨hk, hval⟩ := hwf
      simp only [vdepth] at hd
      simp only [sigOf, encodeValue, decodeValueP, List.append_assoc]
      rw [skipPad_append, exCase₂_ok]
      rw [decodeBasic_encodeBasic e (alignUp off 8) k _ hk, exCase₃_ok]
      rw [ih val e (alignUp off 8 + (encodeBasic e (alignUp off 8) k).length)
        post hval (by omega), exCase₃_ok]
      exact ok_offset_congr _ _ (by
        simp [alignUp, padBytes_length]
        omega)
    | variantV v' =>
      simp only [vwf, Bool.and_eq_true, decide_eq_true_eq] at hwf
      obtain ⟨hv, hlen⟩ := hwf
      simp only [vdepth] at hd
      simp only [sigOf, encodeValue, decodeValueP, List.cons_append,
        List.append_assoc]
      rw [readBytes_len ((sigTypeChars (sigOf v')).length)
        ((sigTypeChars (sigOf v')).map Char.toNat) _ (by simp), exCase₂_ok]
      simp only [List.cons_append, List.nil_append]
      have hmap : ((sigTypeChars (sigOf v')).map Char.toNat).map Char.ofNat =
          sigTypeChars (sigOf v') := by
        rw [List.map_map]
        have hfun : (Char.ofNat ∘ Char.toNat) = id := funext Char.ofNat_toNat
        rw [hfun, List.map_id]
      have hsig : signatureChars [sigOf v'] = sigTypeChars (sigOf v') := by
        simp [signatureChars]
      have hparse : parseAllF ((sigTypeChars (sigOf v')).length + 1)
          (sigTypeChars (sigOf v')) = .ok [sigOf v'] := by
        rw [← hsig]
        exact print_parseAll [sigOf v'] _ (by
          have := sigSize_le_length (sigOf v')
          simp only [List.map_cons, List.map_nil, List.sum_cons, List.sum_nil]
          rw [hsig]
          omega)
      rw [hmap]
      simp only [hparse]
      rw [show off + 1 + (sigTypeChars (sigOf v')).length + 1 =
        off + 2 + (sigTypeChars (sigOf v')).length from by omega]
      rw [ih v' e (off + 2 + (sigTypeChars (sigOf v')).length) post hv
        (by omega), exCase₃_ok]
      exact ok_offset_congr _ _ (by
        simp [List.length_map]
        omega)


theorem decodeBodyValsWith_ok
    (dv : Endian → SigType → Nat → List Nat → Except DecErr (Value × Nat × List Nat))
    (e : Endian) :
    ∀ (vs : List Value) (off : Nat) (post : List Nat),
    (∀ x ∈ vs, ∀ off' post',
      dv e (sigOf x) off' (encodeValue e off' x ++ post') =
        .ok (x, off' + (encodeValue e off' x).length, post')) →
    decodeBodyValsWith dv e (vs.map sigOf) off (encodeBody e off vs ++ post) =
      .ok (vs, off + (encodeBody e off vs).length, post)
  | [], off, post, hyp => by
    simp [decodeBodyValsWith, encodeBody]
  | v :: rest, off, post, hyp => by
    simp only [List.map_cons, encodeBody, decodeBodyValsWith,
      List.append_assoc, List.length_append]
    rw [hyp v (List.mem_cons_self v rest) off _, exCase₃_ok]
    rw [decodeBodyValsWith_ok dv e rest (off + (encodeValue e off v).length) post
      (fun x hx => hyp x (List.mem_cons_of_mem v hx)), exCase₃_ok]
    exact ok_offset_congr _ _ (by omega)

theorem decodeFieldEntriesWith_ok
    (dv : Endian → SigType → Nat → List Nat → Except DecErr (Value × Nat × List Nat))
    (e : Endian) :
    ∀ (fs : List (Nat × Value)) (budget off : Nat) (post : List Nat),
    (∀ p ∈ fs, ∀ off' post',
      dv e .variant off' (encodeValue e off' (.variantV p.2) ++ post') =
        .ok (.variantV p.2, off' + (encodeValue e off' (.variantV p.2)).length,
          post')) →
    fs.length ≤ budget →
    decodeFieldEntriesWith dv e budget (off + (encodeFields e off fs).length) off
        (encodeFields e off fs ++ post) =
      .ok (fs, off + (encodeFields e off fs).length, post)
  | [], budget, off, post, hyp, hc => by
    cases budget <;> simp [decodeFieldEntriesWith, encodeFields]
  | (c, v) :: rest, budget, off, post, hyp, hc => by
    match budget with
    | 0 => simp at hc
    | b + 1 =>
      simp only [encodeFields, fieldEntry, List.append_assoc, List.cons_append,
        List.length_append, List.length_cons, padBytes_length]
      rw [decodeFieldEntriesWith]
      rw [if_neg (by omega)]
      rw [skipPad_append, exCase₂_ok]
      have hhead : ∀ off' post',
          dv e .variant off' (encodeValue e off' (Value.variantV v) ++ post') =
            .ok (Value.variantV v,
              off' + (encodeValue e off' (Value.variantV v)).length, post') :=
        hyp (c, v) (List.mem_cons_self _ rest)
      simp only []
      rw [hhead (alignUp off 8 + 1) _, exCase₃_ok]
      have hIH := decodeFieldEntriesWith_ok dv e rest b
        (off + (padLen off 8 +
          ((encodeValue e (alignUp off 8 + 1) (Value.variantV v)).length + 1)))
        post (fun p hp => hyp p (List.mem_cons_of_mem _ hp))
        (by simp only [List.length_cons] at hc; omega)
      simp only []
      rw [show off + (padLen off 8 +
            ((encodeValue e (alignUp off 8 + 1) (Value.variantV v)).length +
              (encodeFields e (off + (padLen off 8 +
                ((encodeValue e (alignUp off 8 + 1) (Value.variantV v)).length + 1)))
                rest).length + 1)) =
          off + (padLen off 8 +
            ((encodeValue e (alignUp off 8 + 1) (Value.variantV v)).length + 1)) +
          (encodeFields e (off + (padLen off 8 +
            ((encodeValue e (alignUp off 8 + 1) (Value.variantV v)).length + 1)))
            rest).length
        from by omega]
      rw [show alignUp off 8 + 1 +
          (encodeValue e (alignUp off 8 + 1) (Value.variantV v)).length =
          off + (padLen off 8 +
            ((encodeValue e (alignUp off 8 + 1) (Value.variantV v)).length + 1))
        from by simp [alignUp]; omega]
      rw [hIH, exCase₃_ok]


theorem encodeFields_count_le (e : Endian) :
    ∀ (fs : List (Nat × Value)) (off : Nat),
      fs.length ≤ (encodeFields e off fs).length
  | [], off => by simp [encodeFields]
  | (c, v) :: rest, off => by
    have h := encodeFields_count_le e rest (off + (fieldEntry e off c v).length)
    have h2 : 1 ≤ (fieldEntry e off c v).length := by
      simp [fieldEntry, padBytes_length]
      omega
    simp only [encodeFields, List.length_append, List.length_cons]
    omega

theorem decodeBodyValsWith_ok'
    (dv : Endian → SigType → Nat → List Nat → Except DecErr (Value × Nat × List Nat))
    (e : Endian) (vs : List Value) (off : Nat)
    (hyp : ∀ x ∈ vs, ∀ off' post',
      dv e (sigOf x) off' (encodeValue e off' x ++ post') =
        .ok (x, off' + (encodeValue e off' x).length, post')) :
    decodeBodyValsWith dv e (vs.map sigOf) off (encodeBody e off vs) =
      .ok (vs, off + (encodeBody e off vs).length, []) := by
  have h := decodeBodyValsWith_ok dv e vs off [] hyp
  rwa [List.append_nil] at h

/-- C2: for every message whose header fields and body are well formed
and whose declared body signature equals the concatenated signatures of
its body values, decoding the bytes produced by encoding the message
yields the message back, field for field. -/
theorem c2_message_encode_decode_roundTrip (m : Message) (h : mwf m) :
    decodeMessage (encodeMessage m) = .ok m := by
  obtain ⟨e, mt, mfl, mp, ms, mfs, mb⟩ := m
  simp only [mwf] at h
  obtain ⟨h1, h2, h3, h4, h5, h6, h7, h8, h9⟩ := h
  cases e <;>
    (simp only [encodeMessage, endianMarker, List.cons_append, List.nil_append,
      decodeMessage]
     norm_num
     rw [readBytes_len 4 _ _ (encodeWord_length _ 4 _), exCase₂_ok]
     rw [readBytes_len 4 _ _ (encodeWord_length _ 4 _), exCase₂_ok]
     rw [readBytes_len 4 _ _ (encodeWord_length _ 4 _), exCase₂_ok]
     rw [wordOfBytes_encodeWord _ 4 _ (by norm_num; omega)]
     rw [wordOfBytes_encodeWord _ 4 _ (by norm_num; omega)]
     rw [wordOfBytes_encodeWord _ 4 _ (by norm_num; omega)]
     rw [if_neg (by omega)]
     rw [decodeFieldEntriesWith_ok (decodeValueP 65) _ mfs
       ((encodeFields _ 16 mfs).length + 1) 16 _
       (fun p hp off' post' =>
         decodeValueP_ok 65 (Value.variantV p.2) _ off' post'
           (h5 p hp).2.1 (h5 p hp).2.2)
       (Nat.le_succ_of_le (encodeFields_count_le _ mfs 16)), exCase₃_ok]
     rw [skipPad_append, exCase₂_ok]
     rw [h6]
     rw [decodeBodyValsWith_ok' (decodeValueP 65) _ mb
       (alignUp (16 + (encodeFields _ 16 mfs).length) 8)
       (fun x hx off' post' =>
         decodeValueP_ok 65 x _ off' post' (h7 x hx).1 (h7 x hx).2),
       exCase₃_ok]
     rw [if_pos rfl])


/-- Witness for C2: a concrete little-endian method call carrying a
signature header field declaring `us`, one extra string header field,
and a matching two-value body, decoded back unchanged. -/
theorem c2_message_encode_decode_roundTrip_witness :
    mwf ⟨.little, 1, 0, 1, 7,
      [(8, .basicV (.signatureV [.basic .uint32, .basic .string])),
       (6, .basicV (.string [97, 98]))],
      [.basicV (.uint32 300), .basicV (.string [104, 105])]⟩ ∧
    decodeMessage (encodeMessage ⟨.little, 1, 0, 1, 7,
      [(8, .basicV (.signatureV [.basic .uint32, .basic .string])),
       (6, .basicV (.string [97, 98]))],
      [.basicV (.uint32 300), .basicV (.string [104, 105])]⟩) =
      .ok ⟨.little, 1, 0, 1, 7,
        [(8, .basicV (.signatureV [.basic .uint32, .basic .string])),
         (6, .basicV (.string [97, 98]))],
        [.basicV (.uint32 300), .basicV (.string [104, 105])]⟩ :=
  ⟨by unfold mwf; decide, c2_message_encode_decode_roundTrip _ (by unfold mwf; decide)⟩

end Zbus
